import Mathlib

/-!
Verification of the micrograd.rs computation-graph engine (src/grad.rs).

The Rust `Node(Rc<RefCell<Param>>)` heap is modelled as an arena: a list of
`Param` records addressed by natural-number index.  A Rust `Node` value is an
arena index; cloning an `Rc` clones the index, so sharing (two parents holding
the same child) is preserved exactly.  Scalars are rationals; `f64::tanh` is an
abstract parameter function `ft : Q → Q` (every fact proved here about `tanh`
nodes holds for any such function, possibly constrained by a stated hypothesis
such as `ft 0 = 0`, which real `tanh` satisfies).
-/

namespace Micrograd

/-- Operation tag, mirroring `enum Op` in src/grad.rs. -/
inductive Op where
  | none
  | add
  | mul
  | tanh
deriving DecidableEq

/-- Node payload, mirroring `struct Param` in src/grad.rs; `children` holds
arena indices instead of `Rc` pointers. -/
structure Param where
  val : ℚ
  grad : ℚ
  children : List Nat
  op : Op
deriving DecidableEq

/-- The arena of allocated nodes.  A Rust `Node` value is an index into it. -/
abbrev Graph := List Param

/-- Record returned when an index is read out of range; graphs built by the
public operations never read out of range. -/
def defaultParam : Param := ⟨0, 0, [], Op.none⟩

/-- Read the record of node `i`. -/
def nparam : Graph → Nat → Param
  | [], _ => defaultParam
  | p :: _, 0 => p
  | _ :: t, n+1 => nparam t n

/-- Accessor `Node::val`. -/
def nval (g : Graph) (i : Nat) : ℚ := (nparam g i).val

/-- Accessor `Node::grad`. -/
def ngrad (g : Graph) (i : Nat) : ℚ := (nparam g i).grad

/-- The `children` vector of node `i`. -/
def nchildren (g : Graph) (i : Nat) : List Nat := (nparam g i).children

/-- The `op` tag of node `i`. -/
def nop (g : Graph) (i : Nat) : Op := (nparam g i).op

/-- Replace the record at index `i` (no-op out of range). -/
def setNode : Graph → Nat → Param → Graph
  | [], _, _ => []
  | _ :: t, 0, p => p :: t
  | h :: t, n+1, p => h :: setNode t n p

/-- Mutator `Node::set_grad`. -/
def set_grad (g : Graph) (i : Nat) (x : ℚ) : Graph :=
  setNode g i { nparam g i with grad := x }

/-- The value mutation `node.val -= ...` used by `Neuron::update_params`. -/
def set_val (g : Graph) (i : Nat) (x : ℚ) : Graph :=
  setNode g i { nparam g i with val := x }

/-- Constructor `Node::new`: allocate a fresh leaf with gradient 0. -/
def Node.new (g : Graph) (v : ℚ) : Graph × Nat :=
  (g ++ [{ val := v, grad := 0, children := [], op := Op.none }], g.length)

/-- Operation `impl Add for Node`: allocate an `Add` node over `[a, b]`. -/
def Node.add (g : Graph) (a b : Nat) : Graph × Nat :=
  (g ++ [{ val := nval g a + nval g b, grad := 0, children := [a, b],
           op := Op.add }], g.length)

/-- Operation `impl Mul for Node`: allocate a `Mul` node over `[a, b]`. -/
def Node.mul (g : Graph) (a b : Nat) : Graph × Nat :=
  (g ++ [{ val := nval g a * nval g b, grad := 0, children := [a, b],
           op := Op.mul }], g.length)

/-- Operation `Node::tanh`: allocate a `Tanh` node over `[a]`; `ft` stands for
`f64::tanh`. -/
def Node.tanh (ft : ℚ → ℚ) (g : Graph) (a : Nat) : Graph × Nat :=
  (g ++ [{ val := ft (nval g a), grad := 0, children := [a], op := Op.tanh }],
   g.length)

/-- Operation `impl Sub for Node`: `self.clone() + other.clone() * Node::new(-1.0)`
(allocation order: the `-1` leaf, then the `Mul` node, then the `Add` node). -/
def Node.sub (g : Graph) (a b : Nat) : Graph × Nat :=
  let p := Node.new g (-1)
  let m := Node.mul p.1 b p.2
  Node.add m.1 a m.2

/-- Operation `Node::square`: `self.clone() * self.clone()` — both children are the
same arena index. -/
def Node.square (g : Graph) (a : Nat) : Graph × Nat :=
  Node.mul g a a

/-- The `match node.op` block of `Node::backward_pass`: apply the local
derivative rule at node `i`, mutating only children's `grad` fields.  Reads of
old gradients happen exactly where the Rust code performs them: the `Add` arm
re-reads each child's current grad inside its loop, while the `Mul` arm reads
both old grads before either write (so with aliased children the second write
overwrites the first). -/
def localRule (g : Graph) (i : Nat) : Graph :=
  match nop g i with
  | Op.add =>
      (nchildren g i).foldl (fun acc c => set_grad acc c (ngrad acc c + ngrad g i)) g
  | Op.mul =>
      match nchildren g i with
      | [c0, c1] =>
          set_grad (set_grad g c0 (ngrad g c0 + nval g c1 * ngrad g i))
            c1 (ngrad g c1 + nval g c0 * ngrad g i)
      | _ => g
  | Op.tanh =>
      match nchildren g i with
      | c :: _ =>
          set_grad g c (ngrad g c + (1 - nval g i * nval g i) * ngrad g i)
      | [] => g
  | Op.none => g

/-- Fuel-indexed form of the recursion in `Node::backward_pass`.  The Rust
recursion terminates because every child's arena index is strictly smaller than
its parent's (children are allocated before their parent), so fuel `i + 1` is
always sufficient on such graphs; `backward_aux_congr` below makes this
precise. -/
def backward_aux : Nat → Graph → Nat → Graph
  | 0, g, _ => g
  | fuel+1, g, i =>
      let g1 := localRule g i
      (nchildren g1 i).foldl (fun acc c => backward_aux fuel acc c) g1

/-- The traversal `Node::backward_pass`. -/
def Node.backward_pass (g : Graph) (i : Nat) : Graph :=
  backward_aux (i + 1) g i

lemma nparam_nil (i : Nat) : nparam [] i = defaultParam := by
  cases i <;> rfl

lemma nparam_of_length_le :
    ∀ (g : Graph) (i : Nat), g.length ≤ i → nparam g i = defaultParam := by
  intro g
  induction g with
  | nil => intro i _; exact nparam_nil i
  | cons p t ih =>
      intro i hi
      cases i with
      | zero => simp at hi
      | succ n => exact ih n (by simpa using hi)

lemma length_setNode : ∀ (g : Graph) (i : Nat) (p : Param),
    (setNode g i p).length = g.length := by
  intro g
  induction g with
  | nil => intro i p; rfl
  | cons q t ih =>
      intro i p
      cases i with
      | zero => rfl
      | succ n => simp [setNode, ih]

lemma setNode_of_length_le : ∀ (g : Graph) (i : Nat) (p : Param),
    g.length ≤ i → setNode g i p = g := by
  intro g
  induction g with
  | nil => intro i p _; rfl
  | cons q t ih =>
      intro i p hi
      cases i with
      | zero => simp at hi
      | succ n => simp [setNode, ih n p (by simpa using hi)]

lemma nparam_setNode_self : ∀ (g : Graph) (i : Nat) (p : Param),
    i < g.length → nparam (setNode g i p) i = p := by
  intro g
  induction g with
  | nil => intro i p hi; simp at hi
  | cons q t ih =>
      intro i p hi
      cases i with
      | zero => rfl
      | succ n => exact ih n p (by simpa using hi)

lemma nparam_setNode_ne : ∀ (g : Graph) (i j : Nat) (p : Param),
    j ≠ i → nparam (setNode g i p) j = nparam g j := by
  intro g
  induction g with
  | nil => intro i j p _; rfl
  | cons q t ih =>
      intro i j p hne
      cases i with
      | zero =>
          cases j with
          | zero => exact absurd rfl hne
          | succ m => rfl
      | succ n =>
          cases j with
          | zero => rfl
          | succ m => exact ih n m p (by simpa using hne)

lemma nparam_append_left : ∀ (g h : Graph) (i : Nat),
    i < g.length → nparam (g ++ h) i = nparam g i := by
  intro g
  induction g with
  | nil => intro h i hi; simp at hi
  | cons q t ih =>
      intro h i hi
      cases i with
      | zero => rfl
      | succ n => exact ih h n (by simpa using hi)

lemma nparam_append_self : ∀ (g : Graph) (p : Param),
    nparam (g ++ [p]) g.length = p := by
  intro g
  induction g with
  | nil => intro p; rfl
  | cons q t ih => intro p; simpa using ih p

lemma length_set_grad (g : Graph) (i : Nat) (x : ℚ) :
    (set_grad g i x).length = g.length := length_setNode g i _

lemma ngrad_set_grad_self (g : Graph) (i : Nat) (x : ℚ) (hi : i < g.length) :
    ngrad (set_grad g i x) i = x := by
  simp [ngrad, set_grad, nparam_setNode_self g i _ hi]

lemma nparam_set_grad_ne (g : Graph) (i j : Nat) (x : ℚ) (hne : j ≠ i) :
    nparam (set_grad g i x) j = nparam g j :=
  nparam_setNode_ne g i j _ hne

lemma ngrad_set_grad_ne (g : Graph) (i j : Nat) (x : ℚ) (hne : j ≠ i) :
    ngrad (set_grad g i x) j = ngrad g j := by
  simp [ngrad, nparam_set_grad_ne g i j x hne]

lemma nval_set_grad (g : Graph) (i : Nat) (x : ℚ) (j : Nat) :
    nval (set_grad g i x) j = nval g j := by
  rcases eq_or_ne j i with rfl | hne
  · rcases lt_or_le j g.length with hj | hj
    · simp [nval, set_grad, nparam_setNode_self g j _ hj]
    · simp [set_grad, setNode_of_length_le g j _ hj]
  · simp [nval, nparam_set_grad_ne g i j x hne]

lemma nchildren_set_grad (g : Graph) (i : Nat) (x : ℚ) (j : Nat) :
    nchildren (set_grad g i x) j = nchildren g j := by
  rcases eq_or_ne j i with rfl | hne
  · rcases lt_or_le j g.length with hj | hj
    · simp [nchildren, set_grad, nparam_setNode_self g j _ hj]
    · simp [set_grad, setNode_of_length_le g j _ hj]
  · simp [nchildren, nparam_set_grad_ne g i j x hne]

lemma nop_set_grad (g : Graph) (i : Nat) (x : ℚ) (j : Nat) :
    nop (set_grad g i x) j = nop g j := by
  rcases eq_or_ne j i with rfl | hne
  · rcases lt_or_le j g.length with hj | hj
    · simp [nop, set_grad, nparam_setNode_self g j _ hj]
    · simp [set_grad, setNode_of_length_le g j _ hj]
  · simp [nop, nparam_set_grad_ne g i j x hne]

/-- Two graphs agree on everything except possibly gradient fields. -/
def SameStruct (g g' : Graph) : Prop :=
  g'.length = g.length ∧
    ∀ j, nval g' j = nval g j ∧ nchildren g' j = nchildren g j ∧ nop g' j = nop g j

lemma sameStruct_refl (g : Graph) : SameStruct g g :=
  ⟨rfl, fun _ => ⟨rfl, rfl, rfl⟩⟩

lemma sameStruct_trans {g g' g'' : Graph}
    (h1 : SameStruct g g') (h2 : SameStruct g' g'') : SameStruct g g'' := by
  refine ⟨h2.1.trans h1.1, fun j => ?_⟩
  obtain ⟨a1, b1, c1⟩ := h1.2 j
  obtain ⟨a2, b2, c2⟩ := h2.2 j
  exact ⟨a2.trans a1, b2.trans b1, c2.trans c1⟩

lemma sameStruct_set_grad (g : Graph) (i : Nat) (x : ℚ) :
    SameStruct g (set_grad g i x) :=
  ⟨length_set_grad g i x, fun j =>
    ⟨nval_set_grad g i x j, nchildren_set_grad g i x j, nop_set_grad g i x j⟩⟩

lemma sameStruct_foldl {β : Type} (f : Graph → β → Graph)
    (hf : ∀ a b, SameStruct a (f a b)) :
    ∀ (l : List β) (g : Graph), SameStruct g (l.foldl f g) := by
  intro l
  induction l with
  | nil => intro g; exact sameStruct_refl g
  | cons b t ih =>
      intro g
      exact sameStruct_trans (hf g b) (ih (f g b))

lemma sameStruct_localRule (g : Graph) (i : Nat) : SameStruct g (localRule g i) := by
  unfold localRule
  split
  · exact sameStruct_foldl _ (fun a b => sameStruct_set_grad a b _) _ g
  · split
    · exact sameStruct_trans (sameStruct_set_grad _ _ _) (sameStruct_set_grad _ _ _)
    · exact sameStruct_refl g
  · split
    · exact sameStruct_set_grad _ _ _
    · exact sameStruct_refl g
  · exact sameStruct_refl g

lemma sameStruct_backward_aux :
    ∀ (fuel : Nat) (g : Graph) (i : Nat), SameStruct g (backward_aux fuel g i) := by
  intro fuel
  induction fuel with
  | zero => intro g i; exact sameStruct_refl g
  | succ f ih =>
      intro g i
      exact sameStruct_trans (sameStruct_localRule g i)
        (sameStruct_foldl _ (fun a b => ih a b) _ _)

/-- Every child's arena index is strictly smaller than its parent's.  Every
graph built by the public operations satisfies this, because children are
allocated before their parent. -/
def WFGraph (g : Graph) : Prop := ∀ i, ∀ c ∈ nchildren g i, c < i

lemma wfGraph_nil : WFGraph [] := by
  intro i c hc
  simp [nchildren, nparam_nil, defaultParam] at hc

lemma wfGraph_of_sameStruct {g g' : Graph}
    (h : SameStruct g g') (hwf : WFGraph g) : WFGraph g' := by
  intro i c hc
  exact hwf i c (((h.2 i).2.1) ▸ hc)

lemma backward_aux_congr :
    ∀ (i f : Nat) (g : Graph), WFGraph g → i < f →
      backward_aux f g i = Node.backward_pass g i := by
  intro i
  induction i using Nat.strong_induction_on with
  | _ i ih =>
      intro f g hwf hif
      cases f with
      | zero => omega
      | succ f' =>
          show backward_aux (f' + 1) g i = backward_aux (i + 1) g i
          simp only [backward_aux]
          have hch : ∀ c ∈ nchildren (localRule g i) i, c < i := by
            intro c hc
            have := (sameStruct_localRule g i).2 i
            exact hwf i c (this.2.1 ▸ hc)
          have hwf1 : WFGraph (localRule g i) :=
            wfGraph_of_sameStruct (sameStruct_localRule g i) hwf
          have key : ∀ (l : List Nat), (∀ c ∈ l, c < i) →
              ∀ acc, WFGraph acc →
                l.foldl (fun a c => backward_aux f' a c) acc =
                  l.foldl (fun a c => backward_aux i a c) acc := by
            intro l
            induction l with
            | nil => intro _ acc _; rfl
            | cons c t iht =>
                intro hl acc hacc
                have hc : c < i := hl c (List.mem_cons_self c t)
                have h1 : backward_aux f' acc c = Node.backward_pass acc c :=
                  ih c hc f' acc hacc (by omega)
                have h2 : backward_aux i acc c = Node.backward_pass acc c :=
                  ih c hc i acc hacc hc
                simp only [List.foldl_cons, h1, h2]
                exact iht (fun d hd => hl d (List.mem_cons_of_mem c hd))
                  (Node.backward_pass acc c)
                  (wfGraph_of_sameStruct (sameStruct_backward_aux _ acc c) hacc)
          exact key _ hch _ hwf1

/-- Unfolding of `Node::backward_pass` on a well-formed graph: apply the local
rule, then recurse into every child. -/
lemma backward_pass_eq (g : Graph) (i : Nat) (hwf : WFGraph g) :
    Node.backward_pass g i =
      (nchildren g i).foldl (fun a c => Node.backward_pass a c) (localRule g i) := by
  show backward_aux (i + 1) g i = _
  simp only [backward_aux]
  have hs := (sameStruct_localRule g i).2 i
  rw [hs.2.1]
  have hwf1 : WFGraph (localRule g i) :=
    wfGraph_of_sameStruct (sameStruct_localRule g i) hwf
  have key : ∀ (l : List Nat), (∀ c ∈ l, c < i) →
      ∀ acc, WFGraph acc →
        l.foldl (fun a c => backward_aux i a c) acc =
          l.foldl (fun a c => Node.backward_pass a c) acc := by
    intro l
    induction l with
    | nil => intro _ acc _; rfl
    | cons c t iht =>
        intro hl acc hacc
        have hc : c < i := hl c (List.mem_cons_self c t)
        have h1 : backward_aux i acc c = Node.backward_pass acc c :=
          backward_aux_congr c i acc hacc hc
        simp only [List.foldl_cons, h1]
        exact iht (fun d hd => hl d (List.mem_cons_of_mem c hd))
          (Node.backward_pass acc c)
          (wfGraph_of_sameStruct (sameStruct_backward_aux _ acc c) hacc)
  exact key _ (fun c hc => hwf i c hc) _ hwf1

/-- Shape of a strict chain- or tree-shaped computation: every operand is a
fresh, unshared subtree.  Building such an expression with the public
operations (`compile` below) allocates one node per constructor, so no node
below the root is reachable by more than one path. -/
inductive Expr where
  | leaf (v : ℚ)
  | add (a b : Expr)
  | mul (a b : Expr)
  | tanh (a : Expr)

/-- Forward value of an expression (`ft` stands for `f64::tanh`). -/
def Expr.eval (ft : ℚ → ℚ) : Expr → ℚ
  | Expr.leaf v => v
  | Expr.add a b => a.eval ft + b.eval ft
  | Expr.mul a b => a.eval ft * b.eval ft
  | Expr.tanh a => ft (a.eval ft)

/-- Number of graph nodes an expression allocates. -/
def Expr.size : Expr → Nat
  | Expr.leaf _ => 1
  | Expr.add a b => a.size + b.size + 1
  | Expr.mul a b => a.size + b.size + 1
  | Expr.tanh a => a.size + 1

lemma Expr.size_pos : ∀ e : Expr, 1 ≤ e.size := by
  intro e
  cases e <;> simp only [Expr.size] <;> omega

/-- Build the expression with the public graph operations, left to right:
exactly the graph a caller of `Node::new`, `+`, `*` and `Node::tanh` builds
for a tree-shaped computation. -/
def compile (ft : ℚ → ℚ) : Graph → Expr → Graph × Nat
  | g, Expr.leaf v => Node.new g v
  | g, Expr.add a b =>
      let ra := compile ft g a
      let rb := compile ft ra.1 b
      Node.add rb.1 ra.2 rb.2
  | g, Expr.mul a b =>
      let ra := compile ft g a
      let rb := compile ft ra.1 b
      Node.mul rb.1 ra.2 rb.2
  | g, Expr.tanh a =>
      let ra := compile ft g a
      Node.tanh ft ra.1 ra.2

/-- A path from the root of an expression to one of its subterms. -/
inductive Pos where
  | here
  | left (p : Pos)
  | right (p : Pos)
  | down (p : Pos)

/-- Whether `p` denotes a subterm of `e`. -/
def validPos : Expr → Pos → Bool
  | _, Pos.here => true
  | Expr.add a _, Pos.left p => validPos a p
  | Expr.add _ b, Pos.right p => validPos b p
  | Expr.mul a _, Pos.left p => validPos a p
  | Expr.mul _ b, Pos.right p => validPos b p
  | Expr.tanh a, Pos.down p => validPos a p
  | _, _ => false

/-- Whether `p` denotes a leaf of `e`. -/
def validLeafPos : Expr → Pos → Bool
  | Expr.leaf _, Pos.here => true
  | Expr.add a _, Pos.left p => validLeafPos a p
  | Expr.add _ b, Pos.right p => validLeafPos b p
  | Expr.mul a _, Pos.left p => validLeafPos a p
  | Expr.mul _ b, Pos.right p => validLeafPos b p
  | Expr.tanh a, Pos.down p => validLeafPos a p
  | _, _ => false

/-- Arena index of the root of the expression compiled at `base`. -/
def rootIdx (base : Nat) (e : Expr) : Nat := base + e.size - 1

/-- Arena index of the subterm at position `p` when `e` is compiled at
`base` (left subtree first, then right subtree, then the root node). -/
def posIdx (base : Nat) : Expr → Pos → Nat
  | e, Pos.here => rootIdx base e
  | Expr.add a _, Pos.left p => posIdx base a p
  | Expr.add a b, Pos.right p => posIdx (base + a.size) b p
  | Expr.mul a _, Pos.left p => posIdx base a p
  | Expr.mul a b, Pos.right p => posIdx (base + a.size) b p
  | Expr.tanh a, Pos.down p => posIdx base a p
  | _, _ => 0

/-- Product of the local-derivative factors along the path to position `p`:
the coefficient the backward pass multiplies into the seed gradient. -/
def gradCoeff (ft : ℚ → ℚ) : Expr → Pos → ℚ
  | _, Pos.here => 1
  | Expr.add a _, Pos.left p => gradCoeff ft a p
  | Expr.add _ b, Pos.right p => gradCoeff ft b p
  | Expr.mul a b, Pos.left p => b.eval ft * gradCoeff ft a p
  | Expr.mul a b, Pos.right p => a.eval ft * gradCoeff ft b p
  | Expr.tanh a, Pos.down p => (1 - ft (a.eval ft) * ft (a.eval ft)) * gradCoeff ft a p
  | _, _ => 0

/-- Mathematical partial derivative of `e`'s value with respect to the leaf at
position `p`, each leaf being an independent variable: sum rule, product rule
and the chain rule with `d tanh x = 1 - (tanh x)^2`. -/
def Expr.pderiv (ft : ℚ → ℚ) : Expr → Pos → ℚ
  | Expr.leaf _, Pos.here => 1
  | Expr.add a _, Pos.left p => Expr.pderiv ft a p
  | Expr.add _ b, Pos.right p => Expr.pderiv ft b p
  | Expr.mul a b, Pos.left p => b.eval ft * Expr.pderiv ft a p
  | Expr.mul a b, Pos.right p => a.eval ft * Expr.pderiv ft b p
  | Expr.tanh a, Pos.down p => (1 - ft (a.eval ft) ^ 2) * Expr.pderiv ft a p
  | _, _ => 0

lemma validLeafPos_validPos :
    ∀ (e : Expr) (p : Pos), validLeafPos e p = true → validPos e p = true := by
  intro e
  induction e with
  | leaf v => intro p _; cases p <;> simp_all [validLeafPos, validPos]
  | add a b iha ihb =>
      intro p hp
      cases p <;> simp_all [validLeafPos, validPos]
  | mul a b iha ihb =>
      intro p hp
      cases p <;> simp_all [validLeafPos, validPos]
  | tanh a iha =>
      intro p hp
      cases p <;> simp_all [validLeafPos, validPos]

lemma pderiv_eq_gradCoeff (ft : ℚ → ℚ) :
    ∀ (e : Expr) (p : Pos), validLeafPos e p = true →
      Expr.pderiv ft e p = gradCoeff ft e p := by
  intro e
  induction e with
  | leaf v =>
      intro p hp
      cases p <;> simp_all [validLeafPos, Expr.pderiv, gradCoeff]
  | add a b iha ihb =>
      intro p hp
      cases p <;> simp_all [validLeafPos, Expr.pderiv, gradCoeff]
  | mul a b iha ihb =>
      intro p hp
      cases p <;> simp_all [validLeafPos, Expr.pderiv, gradCoeff]
  | tanh a iha =>
      intro p hp
      cases p <;> simp_all [validLeafPos, Expr.pderiv, gradCoeff, sq]

lemma posIdx_bounds :
    ∀ (e : Expr) (p : Pos) (base : Nat), validPos e p = true →
      base ≤ posIdx base e p ∧ posIdx base e p < base + e.size := by
  intro e
  induction e with
  | leaf v =>
      intro p base hp
      cases p <;> simp_all [validPos, posIdx, rootIdx, Expr.size]
  | add a b iha ihb =>
      intro p base hp
      have ha := a.size_pos
      have hb := b.size_pos
      cases p with
      | here => simp only [posIdx, rootIdx, Expr.size]; omega
      | left p' =>
          have := iha p' base (by simpa [validPos] using hp)
          simp only [posIdx, Expr.size]; omega
      | right p' =>
          have := ihb p' (base + a.size) (by simpa [validPos] using hp)
          simp only [posIdx, Expr.size]; omega
      | down p' => simp [validPos] at hp
  | mul a b iha ihb =>
      intro p base hp
      have ha := a.size_pos
      have hb := b.size_pos
      cases p with
      | here => simp only [posIdx, rootIdx, Expr.size]; omega
      | left p' =>
          have := iha p' base (by simpa [validPos] using hp)
          simp only [posIdx, Expr.size]; omega
      | right p' =>
          have := ihb p' (base + a.size) (by simpa [validPos] using hp)
          simp only [posIdx, Expr.size]; omega
      | down p' => simp [validPos] at hp
  | tanh a iha =>
      intro p base hp
      have ha := a.size_pos
      cases p with
      | here => simp only [posIdx, rootIdx, Expr.size]; omega
      | down p' =>
          have := iha p' base (by simpa [validPos] using hp)
          simp only [posIdx, Expr.size]; omega
      | left p' => simp [validPos] at hp
      | right p' => simp [validPos] at hp

/-- The graph holds, starting at index `base`, the freshly compiled tree of
`e`: one node per constructor, children in operand order, forward values
already correct.  Gradients are not constrained. -/
def TreeAt (ft : ℚ → ℚ) (g : Graph) (base : Nat) : Expr → Prop
  | Expr.leaf v =>
      nop g base = Op.none ∧ nchildren g base = [] ∧ nval g base = v
  | Expr.add a b =>
      TreeAt ft g base a ∧ TreeAt ft g (base + a.size) b ∧
      nop g (base + a.size + b.size) = Op.add ∧
      nchildren g (base + a.size + b.size) =
        [rootIdx base a, rootIdx (base + a.size) b] ∧
      nval g (base + a.size + b.size) = a.eval ft + b.eval ft
  | Expr.mul a b =>
      TreeAt ft g base a ∧ TreeAt ft g (base + a.size) b ∧
      nop g (base + a.size + b.size) = Op.mul ∧
      nchildren g (base + a.size + b.size) =
        [rootIdx base a, rootIdx (base + a.size) b] ∧
      nval g (base + a.size + b.size) = a.eval ft * b.eval ft
  | Expr.tanh a =>
      TreeAt ft g base a ∧
      nop g (base + a.size) = Op.tanh ∧
      nchildren g (base + a.size) = [rootIdx base a] ∧
      nval g (base + a.size) = ft (a.eval ft)

lemma rootIdx_leaf (base : Nat) (v : ℚ) : rootIdx base (Expr.leaf v) = base := by
  simp only [rootIdx, Expr.size]; omega

lemma rootIdx_add (base : Nat) (a b : Expr) :
    rootIdx base (Expr.add a b) = base + a.size + b.size := by
  simp only [rootIdx, Expr.size]; omega

lemma rootIdx_mul (base : Nat) (a b : Expr) :
    rootIdx base (Expr.mul a b) = base + a.size + b.size := by
  simp only [rootIdx, Expr.size]; omega

lemma rootIdx_tanh (base : Nat) (a : Expr) :
    rootIdx base (Expr.tanh a) = base + a.size := by
  simp only [rootIdx, Expr.size]; omega

lemma treeAt_root_val (ft : ℚ → ℚ) :
    ∀ (e : Expr) (g : Graph) (base : Nat), TreeAt ft g base e →
      nval g (rootIdx base e) = e.eval ft := by
  intro e
  cases e with
  | leaf v =>
      intro g base h
      rw [rootIdx_leaf]
      exact h.2.2
  | add a b =>
      intro g base h
      rw [rootIdx_add]
      exact h.2.2.2.2
  | mul a b =>
      intro g base h
      rw [rootIdx_mul]
      exact h.2.2.2.2
  | tanh a =>
      intro g base h
      rw [rootIdx_tanh]
      exact h.2.2.2

lemma treeAt_of_sameStruct (ft : ℚ → ℚ) :
    ∀ (e : Expr) {g g' : Graph} (base : Nat), SameStruct g g' →
      TreeAt ft g base e → TreeAt ft g' base e := by
  intro e
  induction e with
  | leaf v =>
      intro g g' base hs h
      obtain ⟨hv, hc, ho⟩ := hs.2 base
      exact ⟨ho ▸ h.1, hc ▸ h.2.1, hv ▸ h.2.2⟩
  | add a b iha ihb =>
      intro g g' base hs h
      obtain ⟨hv, hc, ho⟩ := hs.2 (base + a.size + b.size)
      exact ⟨iha base hs h.1, ihb (base + a.size) hs h.2.1,
        ho ▸ h.2.2.1, hc ▸ h.2.2.2.1, hv ▸ h.2.2.2.2⟩
  | mul a b iha ihb =>
      intro g g' base hs h
      obtain ⟨hv, hc, ho⟩ := hs.2 (base + a.size + b.size)
      exact ⟨iha base hs h.1, ihb (base + a.size) hs h.2.1,
        ho ▸ h.2.2.1, hc ▸ h.2.2.2.1, hv ▸ h.2.2.2.2⟩
  | tanh a iha =>
      intro g g' base hs h
      obtain ⟨hv, hc, ho⟩ := hs.2 (base + a.size)
      exact ⟨iha base hs h.1, ho ▸ h.2.1, hc ▸ h.2.2.1, hv ▸ h.2.2.2⟩

lemma treeAt_mono (ft : ℚ → ℚ) :
    ∀ (e : Expr) {g g' : Graph} (base : Nat),
      (∀ j, base ≤ j → j < base + e.size → nparam g' j = nparam g j) →
      TreeAt ft g base e → TreeAt ft g' base e := by
  intro e
  induction e with
  | leaf v =>
      intro g g' base hag h
      have hb : nparam g' base = nparam g base :=
        hag base (le_refl base) (by simp [Expr.size])
      exact ⟨by simp only [nop, hb]; exact h.1,
        by simp only [nchildren, hb]; exact h.2.1,
        by simp only [nval, hb]; exact h.2.2⟩
  | add a b iha ihb =>
      intro g g' base hag h
      have ha := a.size_pos
      have hb := b.size_pos
      have hroot : nparam g' (base + a.size + b.size) = nparam g (base + a.size + b.size) :=
        hag (base + a.size + b.size) (by omega) (by simp only [Expr.size]; omega)
      refine ⟨iha base (fun j h1 h2 => hag j h1 (by simp only [Expr.size]; omega)) h.1,
        ihb (base + a.size) (fun j h1 h2 => hag j (by omega) (by simp only [Expr.size]; omega)) h.2.1,
        ?_, ?_, ?_⟩
      · simp only [nop, hroot]; exact h.2.2.1
      · simp only [nchildren, hroot]; exact h.2.2.2.1
      · simp only [nval, hroot]; exact h.2.2.2.2
  | mul a b iha ihb =>
      intro g g' base hag h
      have ha := a.size_pos
      have hb := b.size_pos
      have hroot : nparam g' (base + a.size + b.size) = nparam g (base + a.size + b.size) :=
        hag (base + a.size + b.size) (by omega) (by simp only [Expr.size]; omega)
      refine ⟨iha base (fun j h1 h2 => hag j h1 (by simp only [Expr.size]; omega)) h.1,
        ihb (base + a.size) (fun j h1 h2 => hag j (by omega) (by simp only [Expr.size]; omega)) h.2.1,
        ?_, ?_, ?_⟩
      · simp only [nop, hroot]; exact h.2.2.1
      · simp only [nchildren, hroot]; exact h.2.2.2.1
      · simp only [nval, hroot]; exact h.2.2.2.2
  | tanh a iha =>
      intro g g' base hag h
      have ha := a.size_pos
      have hroot : nparam g' (base + a.size) = nparam g (base + a.size) :=
        hag (base + a.size) (by omega) (by simp only [Expr.size]; omega)
      refine ⟨iha base (fun j h1 h2 => hag j h1 (by simp only [Expr.size]; omega)) h.1,
        ?_, ?_, ?_⟩
      · simp only [nop, hroot]; exact h.2.1
      · simp only [nchildren, hroot]; exact h.2.2.1
      · simp only [nval, hroot]; exact h.2.2.2

lemma localRule_none (g : Graph) (i : Nat) (h : nop g i = Op.none) :
    localRule g i = g := by
  unfold localRule
  rw [h]

lemma localRule_add_two (g : Graph) (i c0 c1 : Nat) (h : nop g i = Op.add)
    (hch : nchildren g i = [c0, c1]) :
    localRule g i =
      set_grad (set_grad g c0 (ngrad g c0 + ngrad g i)) c1
        (ngrad (set_grad g c0 (ngrad g c0 + ngrad g i)) c1 + ngrad g i) := by
  unfold localRule
  rw [h, hch]
  simp only [List.foldl_cons, List.foldl_nil]

lemma localRule_mul_two (g : Graph) (i c0 c1 : Nat) (h : nop g i = Op.mul)
    (hch : nchildren g i = [c0, c1]) :
    localRule g i =
      set_grad (set_grad g c0 (ngrad g c0 + nval g c1 * ngrad g i)) c1
        (ngrad g c1 + nval g c0 * ngrad g i) := by
  unfold localRule
  rw [h, hch]

lemma localRule_tanh_one (g : Graph) (i c : Nat) (h : nop g i = Op.tanh)
    (hch : nchildren g i = [c]) :
    localRule g i =
      set_grad g c (ngrad g c + (1 - nval g i * nval g i) * ngrad g i) := by
  unfold localRule
  rw [h, hch]

lemma nop_ne_none_lt (g : Graph) (i : Nat) (h : nop g i ≠ Op.none) :
    i < g.length := by
  by_contra hle
  push_neg at hle
  exact h (by simp [nop, nparam_of_length_le g i hle, defaultParam])

lemma wfGraph_append (g : Graph) (p : Param) (hwf : WFGraph g)
    (hc : ∀ c ∈ p.children, c < g.length) :
    WFGraph (g ++ [p]) := by
  intro i c hci
  rcases lt_trichotomy i g.length with hi | hi | hi
  · rw [nchildren, nparam_append_left g _ i hi] at hci
    exact hwf i c hci
  · subst hi
    rw [nchildren, nparam_append_self] at hci
    exact hc c hci
  · rw [nchildren, nparam_of_length_le _ i (by simp; omega)] at hci
    simp [defaultParam] at hci

lemma ngrad_append_zero (g : Graph) (p : Param) (hp : p.grad = 0) :
    ∀ j, g.length ≤ j → ngrad (g ++ [p]) j = 0 := by
  intro j hj
  rcases eq_or_lt_of_le hj with rfl | hj'
  · rw [ngrad, nparam_append_self]
    exact hp
  · rw [ngrad, nparam_of_length_le _ j (by simp; omega)]
    simp [defaultParam]

lemma compile_length (ft : ℚ → ℚ) :
    ∀ (e : Expr) (g : Graph), (compile ft g e).1.length = g.length + e.size := by
  intro e
  induction e with
  | leaf v => intro g; simp [compile, Node.new, Expr.size]
  | add a b iha ihb =>
      intro g
      simp only [compile, Node.add, List.length_append, List.length_cons,
        List.length_nil, iha, ihb, Expr.size]
      omega
  | mul a b iha ihb =>
      intro g
      simp only [compile, Node.mul, List.length_append, List.length_cons,
        List.length_nil, iha, ihb, Expr.size]
      omega
  | tanh a iha =>
      intro g
      simp only [compile, Node.tanh, List.length_append, List.length_cons,
        List.length_nil, iha, Expr.size]
      omega

lemma compile_root (ft : ℚ → ℚ) :
    ∀ (e : Expr) (g : Graph), (compile ft g e).2 = rootIdx g.length e := by
  intro e
  cases e with
  | leaf v => intro g; simp [compile, Node.new, rootIdx_leaf]
  | add a b =>
      intro g
      show (compile ft (compile ft g a).1 b).1.length = _
      rw [compile_length, compile_length, rootIdx_add]
  | mul a b =>
      intro g
      show (compile ft (compile ft g a).1 b).1.length = _
      rw [compile_length, compile_length, rootIdx_mul]
  | tanh a =>
      intro g
      show (compile ft g a).1.length = _
      rw [compile_length, rootIdx_tanh]

lemma compile_prefix (ft : ℚ → ℚ) :
    ∀ (e : Expr) (g : Graph) (j : Nat), j < g.length →
      nparam (compile ft g e).1 j = nparam g j := by
  intro e
  induction e with
  | leaf v =>
      intro g j hj
      exact nparam_append_left g _ j hj
  | add a b iha ihb =>
      intro g j hj
      have h1 : j < (compile ft (compile ft g a).1 b).1.length := by
        rw [compile_length, compile_length]; omega
      show nparam ((compile ft (compile ft g a).1 b).1 ++ _) j = _
      rw [nparam_append_left _ _ j h1,
        ihb _ j (by rw [compile_length]; omega), iha g j hj]
  | mul a b iha ihb =>
      intro g j hj
      have h1 : j < (compile ft (compile ft g a).1 b).1.length := by
        rw [compile_length, compile_length]; omega
      show nparam ((compile ft (compile ft g a).1 b).1 ++ _) j = _
      rw [nparam_append_left _ _ j h1,
        ihb _ j (by rw [compile_length]; omega), iha g j hj]
  | tanh a iha =>
      intro g j hj
      have h1 : j < (compile ft g a).1.length := by
        rw [compile_length]; omega
      show nparam ((compile ft g a).1 ++ _) j = _
      rw [nparam_append_left _ _ j h1, iha g j hj]

lemma compile_grad_new (ft : ℚ → ℚ) :
    ∀ (e : Expr) (g : Graph) (j : Nat), g.length ≤ j →
      ngrad (compile ft g e).1 j = 0 := by
  intro e
  induction e with
  | leaf v =>
      intro g j hj
      exact ngrad_append_zero g _ rfl j hj
  | add a b iha ihb =>
      intro g j hj
      show ngrad ((compile ft (compile ft g a).1 b).1 ++ _) j = 0
      rcases lt_or_le j (compile ft (compile ft g a).1 b).1.length with hlt | hge
      · rw [ngrad, nparam_append_left _ _ j hlt]
        rcases lt_or_le j (compile ft g a).1.length with hlt2 | hge2
        · rw [show (nparam (compile ft (compile ft g a).1 b).1 j).grad
              = ngrad (compile ft (compile ft g a).1 b).1 j from rfl]
          rw [ngrad, compile_prefix ft b _ j hlt2]
          exact iha g j hj
        · exact ihb _ j hge2
      · exact ngrad_append_zero _ _ rfl j hge
  | mul a b iha ihb =>
      intro g j hj
      show ngrad ((compile ft (compile ft g a).1 b).1 ++ _) j = 0
      rcases lt_or_le j (compile ft (compile ft g a).1 b).1.length with hlt | hge
      · rw [ngrad, nparam_append_left _ _ j hlt]
        rcases lt_or_le j (compile ft g a).1.length with hlt2 | hge2
        · rw [show (nparam (compile ft (compile ft g a).1 b).1 j).grad
              = ngrad (compile ft (compile ft g a).1 b).1 j from rfl]
          rw [ngrad, compile_prefix ft b _ j hlt2]
          exact iha g j hj
        · exact ihb _ j hge2
      · exact ngrad_append_zero _ _ rfl j hge
  | tanh a iha =>
      intro g j hj
      show ngrad ((compile ft g a).1 ++ _) j = 0
      rcases lt_or_le j (compile ft g a).1.length with hlt | hge
      · rw [ngrad, nparam_append_left _ _ j hlt]
        exact iha g j hj
      · exact ngrad_append_zero _ _ rfl j hge

lemma compile_wf (ft : ℚ → ℚ) :
    ∀ (e : Expr) (g : Graph), WFGraph g → WFGraph (compile ft g e).1 := by
  intro e
  induction e with
  | leaf v =>
      intro g hwf
      exact wfGraph_append g _ hwf (by intro c hc; simp at hc)
  | add a b iha ihb =>
      intro g hwf
      refine wfGraph_append _ _ (ihb _ (iha g hwf)) ?_
      intro c hc
      simp only [List.mem_cons, List.not_mem_nil, or_false] at hc
      have hla := compile_root ft a g
      have hlb := compile_root ft b (compile ft g a).1
      have h1 := compile_length ft a g
      have h2 := compile_length ft b (compile ft g a).1
      have := a.size_pos
      have := b.size_pos
      rcases hc with rfl | rfl
      · rw [hla, rootIdx]; omega
      · rw [hlb, rootIdx]; omega
  | mul a b iha ihb =>
      intro g hwf
      refine wfGraph_append _ _ (ihb _ (iha g hwf)) ?_
      intro c hc
      simp only [List.mem_cons, List.not_mem_nil, or_false] at hc
      have hla := compile_root ft a g
      have hlb := compile_root ft b (compile ft g a).1
      have h1 := compile_length ft a g
      have h2 := compile_length ft b (compile ft g a).1
      have := a.size_pos
      have := b.size_pos
      rcases hc with rfl | rfl
      · rw [hla, rootIdx]; omega
      · rw [hlb, rootIdx]; omega
  | tanh a iha =>
      intro g hwf
      refine wfGraph_append _ _ (iha g hwf) ?_
      intro c hc
      simp only [List.mem_cons, List.not_mem_nil, or_false] at hc
      have hla := compile_root ft a g
      have h1 := compile_length ft a g
      have := a.size_pos
      rcases hc with rfl
      rw [hla, rootIdx]; omega

lemma compile_treeAt (ft : ℚ → ℚ) :
    ∀ (e : Expr) (g : Graph), TreeAt ft (compile ft g e).1 g.length e := by
  intro e
  induction e with
  | leaf v =>
      intro g
      refine ⟨?_, ?_, ?_⟩ <;>
        simp [compile, Node.new, nop, nchildren, nval, nparam_append_self]
  | add a b iha ihb =>
      intro g
      have hlen_a := compile_length ft a g
      have hlen_b := compile_length ft b (compile ft g a).1
      have ta1 := iha g
      have tb1 := ihb (compile ft g a).1
      have ta2 : TreeAt ft (compile ft (compile ft g a).1 b).1 g.length a := by
        refine treeAt_mono ft a g.length (fun j h1 h2 => ?_) ta1
        exact compile_prefix ft b _ j (by omega)
      have tb2 : TreeAt ft (compile ft (compile ft g a).1 b).1 (g.length + a.size) b := by
        rw [← hlen_a]
        exact tb1
      have hgb : (compile ft (compile ft g a).1 b).1.length
          = g.length + a.size + b.size := by omega
      show TreeAt ft ((compile ft (compile ft g a).1 b).1 ++ _) g.length (Expr.add a b)
      refine ⟨?_, ?_, ?_, ?_, ?_⟩
      · refine treeAt_mono ft a g.length (fun j h1 h2 => ?_) ta2
        exact nparam_append_left _ _ j (by omega)
      · refine treeAt_mono ft b (g.length + a.size) (fun j h1 h2 => ?_) tb2
        have := b.size_pos
        exact nparam_append_left _ _ j (by omega)
      · rw [nop, ← hgb, nparam_append_self]
      · rw [nchildren, ← hgb, nparam_append_self]
        have h1 : (compile ft g a).2 = rootIdx g.length a := compile_root ft a g
        have h2 : (compile ft (compile ft g a).1 b).2
            = rootIdx (g.length + a.size) b := by
          rw [compile_root, hlen_a]
        rw [h1, h2]
      · rw [nval, ← hgb, nparam_append_self]
        have h1 : nval (compile ft (compile ft g a).1 b).1 (compile ft g a).2
            = a.eval ft := by
          rw [compile_root ft a g]
          exact treeAt_root_val ft a _ g.length ta2
        have h2 : nval (compile ft (compile ft g a).1 b).1
            (compile ft (compile ft g a).1 b).2 = b.eval ft := by
          rw [compile_root]
          exact treeAt_root_val ft b _ _ tb1
        show nval _ _ + nval _ _ = _
        rw [h1, h2]
  | mul a b iha ihb =>
      intro g
      have hlen_a := compile_length ft a g
      have hlen_b := compile_length ft b (compile ft g a).1
      have ta1 := iha g
      have tb1 := ihb (compile ft g a).1
      have ta2 : TreeAt ft (compile ft (compile ft g a).1 b).1 g.length a := by
        refine treeAt_mono ft a g.length (fun j h1 h2 => ?_) ta1
        exact compile_prefix ft b _ j (by omega)
      have tb2 : TreeAt ft (compile ft (compile ft g a).1 b).1 (g.length + a.size) b := by
        rw [← hlen_a]
        exact tb1
      have hgb : (compile ft (compile ft g a).1 b).1.length
          = g.length + a.size + b.size := by omega
      show TreeAt ft ((compile ft (compile ft g a).1 b).1 ++ _) g.length (Expr.mul a b)
      refine ⟨?_, ?_, ?_, ?_, ?_⟩
      · refine treeAt_mono ft a g.length (fun j h1 h2 => ?_) ta2
        exact nparam_append_left _ _ j (by omega)
      · refine treeAt_mono ft b (g.length + a.size) (fun j h1 h2 => ?_) tb2
        have := b.size_pos
        exact nparam_append_left _ _ j (by omega)
      · rw [nop, ← hgb, nparam_append_self]
      · rw [nchildren, ← hgb, nparam_append_self]
        have h1 : (compile ft g a).2 = rootIdx g.length a := compile_root ft a g
        have h2 : (compile ft (compile ft g a).1 b).2
            = rootIdx (g.length + a.size) b := by
          rw [compile_root, hlen_a]
        rw [h1, h2]
      · rw [nval, ← hgb, nparam_append_self]
        have h1 : nval (compile ft (compile ft g a).1 b).1 (compile ft g a).2
            = a.eval ft := by
          rw [compile_root ft a g]
          exact treeAt_root_val ft a _ g.length ta2
        have h2 : nval (compile ft (compile ft g a).1 b).1
            (compile ft (compile ft g a).1 b).2 = b.eval ft := by
          rw [compile_root]
          exact treeAt_root_val ft b _ _ tb1
        show nval _ _ * nval _ _ = _
        rw [h1, h2]
  | tanh a iha =>
      intro g
      have hlen_a := compile_length ft a g
      have ta1 := iha g
      show TreeAt ft ((compile ft g a).1 ++ _) g.length (Expr.tanh a)
      refine ⟨?_, ?_, ?_, ?_⟩
      · refine treeAt_mono ft a g.length (fun j h1 h2 => ?_) ta1
        exact nparam_append_left _ _ j (by omega)
      · rw [nop, show g.length + a.size = (compile ft g a).1.length by omega,
          nparam_append_self]
      · rw [nchildren, show g.length + a.size = (compile ft g a).1.length by omega,
          nparam_append_self]
        rw [compile_root ft a g]
      · rw [nval, show g.length + a.size = (compile ft g a).1.length by omega,
          nparam_append_self]
        have h1 : nval (compile ft g a).1 (compile ft g a).2 = a.eval ft := by
          rw [compile_root ft a g]
          exact treeAt_root_val ft a _ g.length ta1
        show ft (nval _ _) = _
        rw [h1]

lemma sameStruct_backward_pass (g : Graph) (i : Nat) :
    SameStruct g (Node.backward_pass g i) :=
  sameStruct_backward_aux (i + 1) g i

/-- Backward pass over a freshly compiled tree region: the gradient of every
node of the region becomes the seed gradient times the product of the local
derivative factors along its path, and nothing outside the region is touched. -/
lemma backward_tree (ft : ℚ → ℚ) :
    ∀ (e : Expr) (base : Nat) (g : Graph) (gr : ℚ),
      TreeAt ft g base e →
      WFGraph g →
      (∀ q, base ≤ q → q < base + e.size → q ≠ rootIdx base e → ngrad g q = 0) →
      ngrad g (rootIdx base e) = gr →
      (∀ j, j < base ∨ base + e.size ≤ j →
          ngrad (Node.backward_pass g (rootIdx base e)) j = ngrad g j) ∧
      (∀ p, validPos e p = true →
          ngrad (Node.backward_pass g (rootIdx base e)) (posIdx base e p) =
            gr * gradCoeff ft e p) := by
  intro e
  induction e with
  | leaf v =>
      intro base g gr ht hwf hz hroot
      have hbp : Node.backward_pass g (rootIdx base (Expr.leaf v)) = g := by
        rw [rootIdx_leaf, backward_pass_eq g base hwf, ht.2.1, List.foldl_nil,
          localRule_none g base ht.1]
      refine ⟨fun j _ => by rw [hbp], fun p hp => ?_⟩
      cases p with
      | here =>
          show ngrad (Node.backward_pass g _) (rootIdx base (Expr.leaf v)) = gr * 1
          rw [hbp, hroot, mul_one]
      | left p' => simp [validPos] at hp
      | right p' => simp [validPos] at hp
      | down p' => simp [validPos] at hp
  | add a b iha ihb =>
      intro base g gr ht hwf hz hroot
      obtain ⟨hta, htb, hop, hch, hval⟩ := ht
      have hsa := a.size_pos
      have hsb := b.size_pos
      have hla1 : base ≤ rootIdx base a := by rw [rootIdx]; omega
      have hla2 : rootIdx base a < base + a.size := by rw [rootIdx]; omega
      have hlb1 : base + a.size ≤ rootIdx (base + a.size) b := by rw [rootIdx]; omega
      have hlb2 : rootIdx (base + a.size) b < base + a.size + b.size := by
        rw [rootIdx]; omega
      have hrlen : base + a.size + b.size < g.length :=
        nop_ne_none_lt g _ (by rw [hop]; simp)
      rw [rootIdx_add] at hroot
      have hza : ngrad g (rootIdx base a) = 0 :=
        hz _ hla1 (by simp only [Expr.size]; omega) (by rw [rootIdx_add]; omega)
      have hzb : ngrad g (rootIdx (base + a.size) b) = 0 :=
        hz _ (by omega) (by simp only [Expr.size]; omega) (by rw [rootIdx_add]; omega)
      have hne_ab : rootIdx (base + a.size) b ≠ rootIdx base a := by omega
      have hb1 : Node.backward_pass g (rootIdx base (Expr.add a b))
          = Node.backward_pass (Node.backward_pass
              (set_grad (set_grad g (rootIdx base a) gr) (rootIdx (base + a.size) b) gr)
              (rootIdx base a)) (rootIdx (base + a.size) b) := by
        rw [rootIdx_add, backward_pass_eq g _ hwf, hch]
        simp only [List.foldl_cons, List.foldl_nil]
        rw [localRule_add_two g _ _ _ hop hch, hza, hroot, zero_add,
          ngrad_set_grad_ne g _ _ gr hne_ab, hzb, zero_add]
      have hs1 : SameStruct g
          (set_grad (set_grad g (rootIdx base a) gr) (rootIdx (base + a.size) b) gr) :=
        sameStruct_trans (sameStruct_set_grad _ _ _) (sameStruct_set_grad _ _ _)
      have hwf1 : WFGraph
          (set_grad (set_grad g (rootIdx base a) gr) (rootIdx (base + a.size) b) gr) :=
        wfGraph_of_sameStruct hs1 hwf
      have hg1_other : ∀ q, q ≠ rootIdx base a → q ≠ rootIdx (base + a.size) b →
          ngrad (set_grad (set_grad g (rootIdx base a) gr)
            (rootIdx (base + a.size) b) gr) q = ngrad g q := by
        intro q h1 h2
        rw [ngrad_set_grad_ne _ _ _ _ h2, ngrad_set_grad_ne _ _ _ _ h1]
      have hg1_la : ngrad (set_grad (set_grad g (rootIdx base a) gr)
          (rootIdx (base + a.size) b) gr) (rootIdx base a) = gr := by
        rw [ngrad_set_grad_ne _ _ _ _ (by omega : rootIdx base a ≠ rootIdx (base + a.size) b),
          ngrad_set_grad_self g _ gr (by omega)]
      have hg1_lb : ngrad (set_grad (set_grad g (rootIdx base a) gr)
          (rootIdx (base + a.size) b) gr) (rootIdx (base + a.size) b) = gr := by
        rw [ngrad_set_grad_self _ _ gr (by rw [length_set_grad]; omega)]
      obtain ⟨fra, posa⟩ := iha base _ gr
        (treeAt_of_sameStruct ft a base hs1 hta) hwf1
        (by
          intro q hq1 hq2 hq3
          rw [hg1_other q hq3 (by omega)]
          exact hz q hq1 (by simp only [Expr.size]; omega) (by rw [rootIdx_add]; omega))
        hg1_la
      have hs2 : SameStruct g (Node.backward_pass
          (set_grad (set_grad g (rootIdx base a) gr) (rootIdx (base + a.size) b) gr)
          (rootIdx base a)) :=
        sameStruct_trans hs1 (sameStruct_backward_pass _ _)
      have hwf2 : WFGraph (Node.backward_pass
          (set_grad (set_grad g (rootIdx base a) gr) (rootIdx (base + a.size) b) gr)
          (rootIdx base a)) :=
        wfGraph_of_sameStruct hs2 hwf
      obtain ⟨frb, posb⟩ := ihb (base + a.size) _ gr
        (treeAt_of_sameStruct ft b (base + a.size) hs2 htb) hwf2
        (by
          intro q hq1 hq2 hq3
          rw [fra q (Or.inr hq1), hg1_other q (by omega) hq3]
          exact hz q (by omega) (by simp only [Expr.size]; omega) (by rw [rootIdx_add]; omega))
        (by rw [fra _ (Or.inr hlb1), hg1_lb])
      constructor
      · intro j hj
        rw [hb1, frb j (by simp only [Expr.size] at hj; omega),
          fra j (by simp only [Expr.size] at hj; omega),
          hg1_other j (by simp only [Expr.size] at hj; omega)
            (by simp only [Expr.size] at hj; omega)]
      · intro p hp
        cases p with
        | here =>
            show ngrad (Node.backward_pass g _) (rootIdx base (Expr.add a b)) = gr * 1
            rw [hb1, rootIdx_add,
              frb _ (Or.inr (by omega)), fra _ (Or.inr (by omega)),
              hg1_other _ (by omega) (by omega), hroot, mul_one]
        | left p' =>
            have hp' : validPos a p' = true := by simpa [validPos] using hp
            have hpb := posIdx_bounds a p' base hp'
            show ngrad _ (posIdx base a p') = gr * gradCoeff ft a p'
            rw [hb1, frb _ (Or.inl (by omega))]
            exact posa p' hp'
        | right p' =>
            have hp' : validPos b p' = true := by simpa [validPos] using hp
            show ngrad _ (posIdx (base + a.size) b p') = gr * gradCoeff ft b p'
            rw [hb1]
            exact posb p' hp'
        | down p' => simp [validPos] at hp
  | mul a b iha ihb =>
      intro base g gr ht hwf hz hroot
      obtain ⟨hta, htb, hop, hch, hval⟩ := ht
      have hsa := a.size_pos
      have hsb := b.size_pos
      have hla1 : base ≤ rootIdx base a := by rw [rootIdx]; omega
      have hla2 : rootIdx base a < base + a.size := by rw [rootIdx]; omega
      have hlb1 : base + a.size ≤ rootIdx (base + a.size) b := by rw [rootIdx]; omega
      have hlb2 : rootIdx (base + a.size) b < base + a.size + b.size := by
        rw [rootIdx]; omega
      have hrlen : base + a.size + b.size < g.length :=
        nop_ne_none_lt g _ (by rw [hop]; simp)
      rw [rootIdx_mul] at hroot
      have hza : ngrad g (rootIdx base a) = 0 :=
        hz _ hla1 (by simp only [Expr.size]; omega) (by rw [rootIdx_mul]; omega)
      have hzb : ngrad g (rootIdx (base + a.size) b) = 0 :=
        hz _ (by omega) (by simp only [Expr.size]; omega) (by rw [rootIdx_mul]; omega)
      have hne_ab : rootIdx (base + a.size) b ≠ rootIdx base a := by omega
      have hvla : nval g (rootIdx base a) = a.eval ft := treeAt_root_val ft a g base hta
      have hvlb : nval g (rootIdx (base + a.size) b) = b.eval ft :=
        treeAt_root_val ft b g (base + a.size) htb
      have hb1 : Node.backward_pass g (rootIdx base (Expr.mul a b))
          = Node.backward_pass (Node.backward_pass
              (set_grad (set_grad g (rootIdx base a) (b.eval ft * gr))
                (rootIdx (base + a.size) b) (a.eval ft * gr))
              (rootIdx base a)) (rootIdx (base + a.size) b) := by
        rw [rootIdx_mul, backward_pass_eq g _ hwf, hch]
        simp only [List.foldl_cons, List.foldl_nil]
        rw [localRule_mul_two g _ _ _ hop hch, hza, hzb, hroot, hvla, hvlb,
          zero_add, zero_add]
      have hs1 : SameStruct g
          (set_grad (set_grad g (rootIdx base a) (b.eval ft * gr))
            (rootIdx (base + a.size) b) (a.eval ft * gr)) :=
        sameStruct_trans (sameStruct_set_grad _ _ _) (sameStruct_set_grad _ _ _)
      have hwf1 : WFGraph
          (set_grad (set_grad g (rootIdx base a) (b.eval ft * gr))
            (rootIdx (base + a.size) b) (a.eval ft * gr)) :=
        wfGraph_of_sameStruct hs1 hwf
      have hg1_other : ∀ q, q ≠ rootIdx base a → q ≠ rootIdx (base + a.size) b →
          ngrad (set_grad (set_grad g (rootIdx base a) (b.eval ft * gr))
            (rootIdx (base + a.size) b) (a.eval ft * gr)) q = ngrad g q := by
        intro q h1 h2
        rw [ngrad_set_grad_ne _ _ _ _ h2, ngrad_set_grad_ne _ _ _ _ h1]
      have hg1_la : ngrad (set_grad (set_grad g (rootIdx base a) (b.eval ft * gr))
          (rootIdx (base + a.size) b) (a.eval ft * gr)) (rootIdx base a)
            = b.eval ft * gr := by
        rw [ngrad_set_grad_ne _ _ _ _ (by omega : rootIdx base a ≠ rootIdx (base + a.size) b),
          ngrad_set_grad_self g _ _ (by omega)]
      have hg1_lb : ngrad (set_grad (set_grad g (rootIdx base a) (b.eval ft * gr))
          (rootIdx (base + a.size) b) (a.eval ft * gr)) (rootIdx (base + a.size) b)
            = a.eval ft * gr := by
        rw [ngrad_set_grad_self _ _ _ (by rw [length_set_grad]; omega)]
      obtain ⟨fra, posa⟩ := iha base _ (b.eval ft * gr)
        (treeAt_of_sameStruct ft a base hs1 hta) hwf1
        (by
          intro q hq1 hq2 hq3
          rw [hg1_other q hq3 (by omega)]
          exact hz q hq1 (by simp only [Expr.size]; omega) (by rw [rootIdx_mul]; omega))
        hg1_la
      have hs2 : SameStruct g (Node.backward_pass
          (set_grad (set_grad g (rootIdx base a) (b.eval ft * gr))
            (rootIdx (base + a.size) b) (a.eval ft * gr))
          (rootIdx base a)) :=
        sameStruct_trans hs1 (sameStruct_backward_pass _ _)
      have hwf2 : WFGraph (Node.backward_pass
          (set_grad (set_grad g (rootIdx base a) (b.eval ft * gr))
            (rootIdx (base + a.size) b) (a.eval ft * gr))
          (rootIdx base a)) :=
        wfGraph_of_sameStruct hs2 hwf
      obtain ⟨frb, posb⟩ := ihb (base + a.size) _ (a.eval ft * gr)
        (treeAt_of_sameStruct ft b (base + a.size) hs2 htb) hwf2
        (by
          intro q hq1 hq2 hq3
          rw [fra q (Or.inr hq1), hg1_other q (by omega) hq3]
          exact hz q (by omega) (by simp only [Expr.size]; omega) (by rw [rootIdx_mul]; omega))
        (by rw [fra _ (Or.inr hlb1), hg1_lb])
      constructor
      · intro j hj
        rw [hb1, frb j (by simp only [Expr.size] at hj; omega),
          fra j (by simp only [Expr.size] at hj; omega),
          hg1_other j (by simp only [Expr.size] at hj; omega)
            (by simp only [Expr.size] at hj; omega)]
      · intro p hp
        cases p with
        | here =>
            show ngrad (Node.backward_pass g _) (rootIdx base (Expr.mul a b)) = gr * 1
            rw [hb1, rootIdx_mul,
              frb _ (Or.inr (by omega)), fra _ (Or.inr (by omega)),
              hg1_other _ (by omega) (by omega), hroot, mul_one]
        | left p' =>
            have hp' : validPos a p' = true := by simpa [validPos] using hp
            have hpb := posIdx_bounds a p' base hp'
            show ngrad _ (posIdx base a p')
              = gr * (b.eval ft * gradCoeff ft a p')
            rw [hb1, frb _ (Or.inl (by omega)), posa p' hp']
            ring
        | right p' =>
            have hp' : validPos b p' = true := by simpa [validPos] using hp
            show ngrad _ (posIdx (base + a.size) b p')
              = gr * (a.eval ft * gradCoeff ft b p')
            rw [hb1, posb p' hp']
            ring
        | down p' => simp [validPos] at hp
  | tanh a iha =>
      intro base g gr ht hwf hz hroot
      obtain ⟨hta, hop, hch, hval⟩ := ht
      have hsa := a.size_pos
      have hla1 : base ≤ rootIdx base a := by rw [rootIdx]; omega
      have hla2 : rootIdx base a < base + a.size := by rw [rootIdx]; omega
      have hrlen : base + a.size < g.length :=
        nop_ne_none_lt g _ (by rw [hop]; simp)
      rw [rootIdx_tanh] at hroot
      have hza : ngrad g (rootIdx base a) = 0 :=
        hz _ hla1 (by simp only [Expr.size]; omega) (by rw [rootIdx_tanh]; omega)
      have hb1 : Node.backward_pass g (rootIdx base (Expr.tanh a))
          = Node.backward_pass
              (set_grad g (rootIdx base a)
                ((1 - ft (a.eval ft) * ft (a.eval ft)) * gr))
              (rootIdx base a) := by
        rw [rootIdx_tanh, backward_pass_eq g _ hwf, hch]
        simp only [List.foldl_cons, List.foldl_nil]
        rw [localRule_tanh_one g _ _ hop hch, hza, hroot, hval, zero_add]
      have hs1 : SameStruct g
          (set_grad g (rootIdx base a) ((1 - ft (a.eval ft) * ft (a.eval ft)) * gr)) :=
        sameStruct_set_grad _ _ _
      have hwf1 : WFGraph
          (set_grad g (rootIdx base a) ((1 - ft (a.eval ft) * ft (a.eval ft)) * gr)) :=
        wfGraph_of_sameStruct hs1 hwf
      have hg1_la : ngrad
          (set_grad g (rootIdx base a) ((1 - ft (a.eval ft) * ft (a.eval ft)) * gr))
          (rootIdx base a) = (1 - ft (a.eval ft) * ft (a.eval ft)) * gr :=
        ngrad_set_grad_self g _ _ (by omega)
      obtain ⟨fra, posa⟩ := iha base _ ((1 - ft (a.eval ft) * ft (a.eval ft)) * gr)
        (treeAt_of_sameStruct ft a base hs1 hta) hwf1
        (by
          intro q hq1 hq2 hq3
          rw [ngrad_set_grad_ne _ _ _ _ hq3]
          exact hz q hq1 (by simp only [Expr.size]; omega) (by rw [rootIdx_tanh]; omega))
        hg1_la
      constructor
      · intro j hj
        rw [hb1, fra j (by simp only [Expr.size] at hj; omega),
          ngrad_set_grad_ne _ _ _ _ (by simp only [Expr.size] at hj; omega)]
      · intro p hp
        cases p with
        | here =>
            show ngrad (Node.backward_pass g _) (rootIdx base (Expr.tanh a)) = gr * 1
            rw [hb1, rootIdx_tanh, fra _ (Or.inr (by omega)),
              ngrad_set_grad_ne _ _ _ _ (by omega), hroot, mul_one]
        | down p' =>
            have hp' : validPos a p' = true := by simpa [validPos] using hp
            show ngrad _ (posIdx base a p')
              = gr * ((1 - ft (a.eval ft) * ft (a.eval ft)) * gradCoeff ft a p')
            rw [hb1, posa p' hp']
            ring
        | left p' => simp [validPos] at hp
        | right p' => simp [validPos] at hp

/-- Claim C2: for every computation graph that is a strict chain or tree of
the public operations — `compile` builds exactly those graphs, allocating one
fresh node per operation on top of any existing well-formed graph — every
fresh node starts with grad 0, the root's value is the expression's value,
and after overwriting the root's grad with 1.0 and calling `backward_pass` on
the root, every leaf node's grad equals the mathematical partial derivative
of the root's value with respect to that leaf's value. -/
theorem C2_tree_backward_computes_derivatives (ft : ℚ → ℚ) (g0 : Graph)
    (e : Expr) (hwf : WFGraph g0) :
    nval (compile ft g0 e).1 (compile ft g0 e).2 = e.eval ft ∧
    (∀ j, g0.length ≤ j → ngrad (compile ft g0 e).1 j = 0) ∧
    ∀ p, validLeafPos e p = true →
      ngrad (Node.backward_pass
          (set_grad (compile ft g0 e).1 (compile ft g0 e).2 1)
          (compile ft g0 e).2)
        (posIdx g0.length e p) = Expr.pderiv ft e p := by
  have hroot := compile_root ft e g0
  have htree := compile_treeAt ft e g0
  have hlen := compile_length ft e g0
  have hsz := e.size_pos
  refine ⟨by rw [hroot]; exact treeAt_root_val ft e _ _ htree,
    compile_grad_new ft e g0, ?_⟩
  intro p hp
  have hr_lt : (compile ft g0 e).2 < (compile ft g0 e).1.length := by
    rw [hroot, rootIdx]; omega
  have hs : SameStruct (compile ft g0 e).1
      (set_grad (compile ft g0 e).1 (compile ft g0 e).2 1) :=
    sameStruct_set_grad _ _ _
  obtain ⟨_, hpos⟩ := backward_tree ft e g0.length
    (set_grad (compile ft g0 e).1 (compile ft g0 e).2 1) 1
    (treeAt_of_sameStruct ft e g0.length hs htree)
    (wfGraph_of_sameStruct hs (compile_wf ft e g0 hwf))
    (by
      intro q hq1 hq2 hq3
      rw [ngrad_set_grad_ne _ _ _ _ (by rw [hroot]; exact hq3)]
      exact compile_grad_new ft e g0 q hq1)
    (by rw [← hroot]; exact ngrad_set_grad_self _ _ _ hr_lt)
  rw [← hroot] at hpos
  rw [hpos p (validLeafPos_validPos e p hp), one_mul,
    pderiv_eq_gradCoeff ft e p hp]

/-- Witness for C2: the tree `leaf 2 * leaf 3` over the empty graph, at the
left leaf. -/
theorem C2_tree_backward_witness :
    ngrad (Node.backward_pass
        (set_grad (compile id [] (Expr.mul (Expr.leaf 2) (Expr.leaf 3))).1
          (compile id [] (Expr.mul (Expr.leaf 2) (Expr.leaf 3))).2 1)
        (compile id [] (Expr.mul (Expr.leaf 2) (Expr.leaf 3))).2)
      (posIdx 0 (Expr.mul (Expr.leaf 2) (Expr.leaf 3)) (Pos.left Pos.here))
      = Expr.pderiv id (Expr.mul (Expr.leaf 2) (Expr.leaf 3)) (Pos.left Pos.here) :=
  (C2_tree_backward_computes_derivatives id []
    (Expr.mul (Expr.leaf 2) (Expr.leaf 3)) wfGraph_nil).2.2 (Pos.left Pos.here) rfl

/-- The `i64 → usize` cast in `0..self.n_in as usize` (two's-complement
reinterpretation, i.e. reduction mod 2^64; an `i64` value is always in
range). -/
def usizeOfI64 (n : ℤ) : Nat := (n % (2 : ℤ) ^ 64).toNat

/-- Models `rand::thread_rng` with `gen_range(-0.1..0.1)` as an arbitrary
externally supplied stream of sampled values (no claim depends on the sampled
values, only on graph structure). -/
structure Rng where
  supply : List ℚ

/-- Draw the next sampled value. -/
def Rng.gen : Rng → ℚ × Rng
  | ⟨[]⟩ => (0, ⟨[]⟩)
  | ⟨v :: rest⟩ => (v, ⟨rest⟩)

/-- The record `struct Neuron`: the weight and bias fields hold arena indices of the
persistent leaf parameter nodes. -/
structure Neuron where
  n_in : ℤ
  w : List Nat
  b : Nat

/-- The `(0..n_in).map(|_| Node::new(rng.gen_range(..))).collect()` loop of
`Neuron::new` (`(0..n_in)` is empty when `n_in ≤ 0`). -/
def mkLeaves : Rng → Graph → Nat → Rng × Graph × List Nat
  | r, g, 0 => (r, g, [])
  | r, g, n+1 =>
      let v := r.gen
      let q := Node.new g v.1
      let rest := mkLeaves v.2 q.1 n
      (rest.1, rest.2.1, q.2 :: rest.2.2)

/-- Constructor `Neuron::new`. -/
def Neuron.new (r : Rng) (g : Graph) (n_in : ℤ) : Rng × Graph × Neuron :=
  let lw := mkLeaves r g n_in.toNat
  let vb := lw.1.gen
  let qb := Node.new lw.2.1 vb.1
  (vb.2, qb.1, ⟨n_in, lw.2.2, qb.2⟩)

/-- The loop of `Neuron::forward`: for each `i` the index accesses `self.w[i]`
and `x[i]` panic when out of range (modelled as `none`); otherwise
`act = act + w[i] * x[i]`. -/
def forwardLoop (w x : List Nat) : Graph → Nat → List Nat → Option (Graph × Nat)
  | g, act, [] => some (g, act)
  | g, act, i :: rest =>
      match w.get? i, x.get? i with
      | some wi, some xi =>
          let m := Node.mul g wi xi
          let a := Node.add m.1 act m.2
          forwardLoop w x a.1 a.2 rest
      | _, _ => none

/-- Operation `Neuron::forward`: run the loop over `0..n_in as usize` starting from the
bias, then apply `tanh`. -/
def Neuron.forward (ft : ℚ → ℚ) (g : Graph) (nr : Neuron) (x : List Nat) :
    Option (Graph × Nat) :=
  match forwardLoop nr.w x g nr.b (List.range (usizeOfI64 nr.n_in)) with
  | some ga => some (Node.tanh ft ga.1 ga.2)
  | none => none

/-- Function `f64::clamp(min, max)` on rationals (the NaN panic cannot arise). -/
def clampQ (x lo hi : ℚ) : ℚ := if x < lo then lo else if hi < x then hi else x

/-- Operation `Neuron::update_params`: for each weight in order and then the bias, clip
the gradient to `[-1, 1]` and mutate `val -= learning_rate * clipped`. -/
def Neuron.update_params (g : Graph) (nr : Neuron) (rate : ℚ) : Graph :=
  let g1 := nr.w.foldl
    (fun acc wi => set_val acc wi (nval acc wi - rate * clampQ (ngrad acc wi) (-1) 1)) g
  set_val g1 nr.b (nval g1 nr.b - rate * clampQ (ngrad g1 nr.b) (-1) 1)

/-- Operation `Neuron::zero_grad`: set grad 0 on every weight, then on the bias. -/
def Neuron.zero_grad (g : Graph) (nr : Neuron) : Graph :=
  set_grad (nr.w.foldl (fun acc wi => set_grad acc wi 0) g) nr.b 0

/-- The record `struct Layer`. -/
structure Layer where
  n_in : ℤ
  n_out : ℤ
  neurons : List Neuron

/-- The `for i in 1..=n_out` loop of `Layer::new` (`n_out` iterations when
`n_out ≥ 1`, none otherwise). -/
def mkNeurons (n_in : ℤ) : Rng → Graph → Nat → Rng × Graph × List Neuron
  | r, g, 0 => (r, g, [])
  | r, g, k+1 =>
      let q := Neuron.new r g n_in
      let rest := mkNeurons n_in q.1 q.2.1 k
      (rest.1, rest.2.1, q.2.2 :: rest.2.2)

/-- Constructor `Layer::new`. -/
def Layer.new (r : Rng) (g : Graph) (n_in n_out : ℤ) : Rng × Graph × Layer :=
  let q := mkNeurons n_in r g n_out.toNat
  (q.1, q.2.1, ⟨n_in, n_out, q.2.2⟩)

/-- Operation `Layer::zero_grad`: delegate to every neuron in order. -/
def Layer.zero_grad (g : Graph) (l : Layer) : Graph :=
  l.neurons.foldl (fun acc nr => Neuron.zero_grad acc nr) g

/-- Operation `Layer::update_params`: delegate to every neuron in order. -/
def Layer.update_params (g : Graph) (l : Layer) (rate : ℚ) : Graph :=
  l.neurons.foldl (fun acc nr => Neuron.update_params acc nr rate) g

/-- The record `struct MLP`. -/
structure MLP where
  n_in : ℤ
  n_outs : List ℤ
  layers : List Layer

/-- The `for i in 1..n_outs.len()` loop of `MLP::new`: it builds
`Layer::new(n_outs[i-1], n_outs[i])`, i.e. one layer per consecutive pair,
threading the rng and the arena. -/
def mkLayers : Rng → Graph → ℤ → List ℤ → Rng × Graph × List Layer
  | r, g, _, [] => (r, g, [])
  | r, g, prev, n :: rest =>
      let q := Layer.new r g prev n
      let qs := mkLayers q.1 q.2.1 n rest
      (qs.1, qs.2.1, q.2.2 :: qs.2.2)

/-- Constructor `MLP::new`: `n_outs[0]` is read unconditionally before the loop, so an
empty `layer_sizes` vector is an out-of-bounds panic (modelled as `none`). -/
def MLP.new (r : Rng) (g : Graph) (n_in : ℤ) (n_outs : List ℤ) :
    Option (Rng × Graph × MLP) :=
  match n_outs with
  | [] => none
  | h0 :: rest =>
      let q := Layer.new r g n_in h0
      let qs := mkLayers q.1 q.2.1 h0 rest
      some (qs.1, qs.2.1, ⟨n_in, h0 :: rest, q.2.2 :: qs.2.2⟩)

/-- Operation `MLP::zero_grad`: delegate to every layer in order. -/
def MLP.zero_grad (g : Graph) (m : MLP) : Graph :=
  m.layers.foldl (fun acc l => Layer.zero_grad acc l) g

/-- Operation `MLP::update_params`: delegate to every layer in order. -/
def MLP.update_params (g : Graph) (m : MLP) (rate : ℚ) : Graph :=
  m.layers.foldl (fun acc l => Layer.update_params acc l rate) g

/-- Claim C1, evaluated at the failing input: for `a = constant(4)` and
`r = square(a)`, `r.value()` is 16 and both children of the `Mul` node are the
same node instance as `a`, but after `r.set_grad(1.0)` and `backward_pass(r)`
the code leaves `a.grad()` at 4, not the 8 the claim requires: the `Mul` arm
reads both children's old gradients before either write, so with the
self-shared child the second `set_grad` overwrites the first accumulation
instead of adding to it. -/
theorem C1_square_backward_code_eval :
    (let p := Node.new [] 4
     let s := Node.square p.1 p.2
     let g := Node.backward_pass (set_grad s.1 s.2 1) s.2
     (nval s.1 s.2, nchildren s.1 s.2, ngrad g p.2))
      = (16, [0, 0], 4) := by
  norm_num [Node.new, Node.square, Node.mul, Node.backward_pass, backward_aux,
    localRule, set_grad, setNode, nparam, nval, ngrad, nchildren, nop,
    defaultParam]

/-- Claim C3: `multiply(a, b)` allocates a fresh node with value
`a.value * b.value`, children `[a, b]` in operand order and the `Mul` tag;
the backward local rule on a `Mul` node with distinct children adds
`children[1].value * node.grad` to `children[0].grad` and
`children[0].value * node.grad` to `children[1].grad`; and for
`a = constant(2)`, `b = constant(3)`, `r = multiply(a, b)`: `r.value() == 6`
and, after seeding grad 1 and running the backward pass, `a.grad() == 3` and
`b.grad() == 2`. -/
theorem C3_multiply_product_rule (g : Graph) (a b : Nat)
    (g' : Graph) (i c0 c1 : Nat)
    (hop : nop g' i = Op.mul) (hch : nchildren g' i = [c0, c1])
    (hne : c0 ≠ c1) (h0 : c0 < g'.length) (h1 : c1 < g'.length) :
    Node.mul g a b = (g ++ [{ val := nval g a * nval g b, grad := 0,
                              children := [a, b], op := Op.mul }], g.length) ∧
    ngrad (localRule g' i) c0 = ngrad g' c0 + nval g' c1 * ngrad g' i ∧
    ngrad (localRule g' i) c1 = ngrad g' c1 + nval g' c0 * ngrad g' i ∧
    (let pa := Node.new [] 2
     let pb := Node.new pa.1 3
     let r := Node.mul pb.1 pa.2 pb.2
     let gb := Node.backward_pass (set_grad r.1 r.2 1) r.2
     (nval r.1 r.2, ngrad gb pa.2, ngrad gb pb.2)) = (6, 3, 2) := by
  refine ⟨rfl, ?_, ?_, ?_⟩
  · rw [localRule_mul_two g' i c0 c1 hop hch,
      ngrad_set_grad_ne _ _ _ _ hne, ngrad_set_grad_self g' c0 _ h0]
  · rw [localRule_mul_two g' i c0 c1 hop hch,
      ngrad_set_grad_self _ c1 _ (by rw [length_set_grad]; exact h1)]
  · norm_num [Node.new, Node.mul, Node.backward_pass, backward_aux,
      localRule, set_grad, setNode, nparam, nval, ngrad, nchildren, nop,
      defaultParam]

/-- Claim C4: `add(a, b)` allocates a fresh node with value
`a.value + b.value`, children `[a, b]` and the `Add` tag; the backward local
rule on an `Add` node with distinct children adds `node.grad` unchanged to
each child's grad; and for `a = constant(2)`, `b = constant(3)`,
`r = add(a, b)`: `r.value() == 5` and, after `r.set_grad(1)` and
`backward_pass(r)`, `a.grad() == 1` and `b.grad() == 1`. -/
theorem C4_add_backward (g : Graph) (a b : Nat)
    (g' : Graph) (i c0 c1 : Nat)
    (hop : nop g' i = Op.add) (hch : nchildren g' i = [c0, c1])
    (hne : c0 ≠ c1) (h0 : c0 < g'.length) (h1 : c1 < g'.length) :
    Node.add g a b = (g ++ [{ val := nval g a + nval g b, grad := 0,
                              children := [a, b], op := Op.add }], g.length) ∧
    ngrad (localRule g' i) c0 = ngrad g' c0 + ngrad g' i ∧
    ngrad (localRule g' i) c1 = ngrad g' c1 + ngrad g' i ∧
    (let pa := Node.new [] 2
     let pb := Node.new pa.1 3
     let r := Node.add pb.1 pa.2 pb.2
     let gb := Node.backward_pass (set_grad r.1 r.2 1) r.2
     (nval r.1 r.2, ngrad gb pa.2, ngrad gb pb.2)) = (5, 1, 1) := by
  refine ⟨rfl, ?_, ?_, ?_⟩
  · rw [localRule_add_two g' i c0 c1 hop hch,
      ngrad_set_grad_ne _ _ _ _ hne, ngrad_set_grad_self g' c0 _ h0]
  · rw [localRule_add_two g' i c0 c1 hop hch,
      ngrad_set_grad_self _ c1 _ (by rw [length_set_grad]; exact h1),
      ngrad_set_grad_ne _ _ _ _ hne.symm]
  · norm_num [Node.new, Node.add, Node.backward_pass, backward_aux,
      localRule, set_grad, setNode, nparam, nval, ngrad, nchildren, nop,
      defaultParam]

/-- Claim C5: `hyperbolic_tangent(a)` allocates a fresh node with value
`tanh(a.value)`, single child `[a]` and the `Tanh` tag; the backward local
rule adds `(1 - node.value^2) * node.grad` to the child's grad, computed from
the node's own output value; and for `a = constant(0)`,
`r = hyperbolic_tangent(a)` (using any tanh function with `tanh 0 = 0`, as
`f64::tanh` satisfies): `r.value() == 0` and, after seeding grad 1 and running
the backward pass, `a.grad() == 1`. -/
theorem C5_tanh_backward (ft : ℚ → ℚ) (hft : ft 0 = 0) (g : Graph) (a : Nat)
    (g' : Graph) (i c : Nat)
    (hop : nop g' i = Op.tanh) (hch : nchildren g' i = [c]) (h0 : c < g'.length) :
    Node.tanh ft g a = (g ++ [{ val := ft (nval g a), grad := 0,
                                children := [a], op := Op.tanh }], g.length) ∧
    ngrad (localRule g' i) c
      = ngrad g' c + (1 - nval g' i * nval g' i) * ngrad g' i ∧
    (let pa := Node.new [] 0
     let r := Node.tanh ft pa.1 pa.2
     let gb := Node.backward_pass (set_grad r.1 r.2 1) r.2
     (nval r.1 r.2, ngrad gb pa.2)) = (0, 1) := by
  refine ⟨rfl, ?_, ?_⟩
  · rw [localRule_tanh_one g' i c hop hch, ngrad_set_grad_self g' c _ h0]
  · norm_num [Node.new, Node.tanh, Node.backward_pass, backward_aux,
      localRule, set_grad, setNode, nparam, nval, ngrad, nchildren, nop,
      defaultParam, hft]

lemma nparam_append_right : ∀ (g h : Graph) (k : Nat),
    nparam (g ++ h) (g.length + k) = nparam h k := by
  intro g
  induction g with
  | nil => intro h k; rw [List.nil_append, List.length_nil, Nat.zero_add]
  | cons q t ih =>
      intro h k
      have h1 : (q :: t).length + k = (t.length + k) + 1 := by
        simp only [List.length_cons]; omega
      rw [h1]
      show nparam (t ++ h) (t.length + k) = nparam h k
      exact ih h k

lemma nparam_node_new_self (g : Graph) (v : ℚ) :
    nparam (Node.new g v).1 (Node.new g v).2
      = { val := v, grad := 0, children := [], op := Op.none } :=
  nparam_append_self g _

lemma nparam_node_new_preserved (g : Graph) (v : ℚ) (j : Nat) (hj : j < g.length) :
    nparam (Node.new g v).1 j = nparam g j :=
  nparam_append_left g _ j hj

lemma nparam_node_add_self (g : Graph) (a b : Nat) :
    nparam (Node.add g a b).1 (Node.add g a b).2
      = { val := nval g a + nval g b, grad := 0, children := [a, b],
          op := Op.add } :=
  nparam_append_self g _

lemma nparam_node_add_preserved (g : Graph) (a b : Nat) (j : Nat)
    (hj : j < g.length) :
    nparam (Node.add g a b).1 j = nparam g j :=
  nparam_append_left g _ j hj

lemma nparam_node_mul_self (g : Graph) (a b : Nat) :
    nparam (Node.mul g a b).1 (Node.mul g a b).2
      = { val := nval g a * nval g b, grad := 0, children := [a, b],
          op := Op.mul } :=
  nparam_append_self g _

lemma nparam_node_mul_preserved (g : Graph) (a b : Nat) (j : Nat)
    (hj : j < g.length) :
    nparam (Node.mul g a b).1 j = nparam g j :=
  nparam_append_left g _ j hj

lemma nparam_node_tanh_self (ft : ℚ → ℚ) (g : Graph) (a : Nat) :
    nparam (Node.tanh ft g a).1 (Node.tanh ft g a).2
      = { val := ft (nval g a), grad := 0, children := [a], op := Op.tanh } :=
  nparam_append_self g _

lemma nparam_node_tanh_preserved (ft : ℚ → ℚ) (g : Graph) (a : Nat) (j : Nat)
    (hj : j < g.length) :
    nparam (Node.tanh ft g a).1 j = nparam g j :=
  nparam_append_left g _ j hj

/-- Claim C8: `subtract(a, b)` is exactly the composition
`add(a, multiply(b, constant(-1)))`: it introduces no distinct operation tag
(the root node carries the `Add` tag), the root's children are `a` and a `Mul`
node over `b` and a fresh leaf holding `-1`, and the result's value equals
`a.value - b.value`. -/
theorem C8_subtract_composition (g : Graph) (a b : Nat)
    (ha : a < g.length) (hb : b < g.length) :
    Node.sub g a b
      = (let p := Node.new g (-1)
         let m := Node.mul p.1 b p.2
         Node.add m.1 a m.2) ∧
    (Node.sub g a b).2 = g.length + 2 ∧
    nop (Node.sub g a b).1 (Node.sub g a b).2 = Op.add ∧
    nchildren (Node.sub g a b).1 (Node.sub g a b).2 = [a, g.length + 1] ∧
    nop (Node.sub g a b).1 (g.length + 1) = Op.mul ∧
    nchildren (Node.sub g a b).1 (g.length + 1) = [b, g.length] ∧
    nop (Node.sub g a b).1 g.length = Op.none ∧
    nchildren (Node.sub g a b).1 g.length = [] ∧
    nval (Node.sub g a b).1 g.length = -1 ∧
    ngrad (Node.sub g a b).1 g.length = 0 ∧
    nval (Node.sub g a b).1 (Node.sub g a b).2 = nval g a - nval g b := by
  have hsub : Node.sub g a b
      = Node.add (Node.mul (Node.new g (-1)).1 b (Node.new g (-1)).2).1 a
          (Node.mul (Node.new g (-1)).1 b (Node.new g (-1)).2).2 := rfl
  have hlen1 : (Node.new g (-1)).1.length = g.length + 1 := by
    simp [Node.new]
  have hlen2 : (Node.mul (Node.new g (-1)).1 b (Node.new g (-1)).2).1.length
      = g.length + 2 := by
    simp [Node.mul, Node.new]
  have hm2 : (Node.mul (Node.new g (-1)).1 b (Node.new g (-1)).2).2
      = g.length + 1 := by
    simp [Node.mul, Node.new]
  have hc : (Node.new g (-1)).2 = g.length := rfl
  have hvb1 : nval (Node.new g (-1)).1 b = nval g b := by
    rw [nval, nparam_node_new_preserved g _ b hb]; rfl
  have hva1 : nval (Node.new g (-1)).1 a = nval g a := by
    rw [nval, nparam_node_new_preserved g _ a ha]; rfl
  have hvc1 : nval (Node.new g (-1)).1 (Node.new g (-1)).2 = -1 := by
    rw [nval, nparam_node_new_self]
  have hmulroot := nparam_node_mul_self (Node.new g (-1)).1 b (Node.new g (-1)).2
  have hr2 : (Node.sub g a b).2 = g.length + 2 := by
    rw [hsub]
    show (Node.mul (Node.new g (-1)).1 b (Node.new g (-1)).2).1.length = _
    exact hlen2
  refine ⟨rfl, hr2, ?_, ?_, ?_, ?_, ?_, ?_, ?_, ?_, ?_⟩
  · rw [hsub, nop, nparam_node_add_self]
  · rw [hsub, nchildren, nparam_node_add_self]
    simp only [List.cons.injEq, and_true, true_and]
    exact hm2
  · rw [hsub, nop, nparam_node_add_preserved _ _ _ _ (by omega),
      ← hm2, nparam_node_mul_self]
  · rw [hsub, nchildren, nparam_node_add_preserved _ _ _ _ (by omega),
      ← hm2, nparam_node_mul_self]
    rfl
  · rw [hsub, nop, nparam_node_add_preserved _ _ _ _ (by omega),
      nparam_node_mul_preserved _ _ _ _ (by omega),
      ← hc, nparam_node_new_self]
  · rw [hsub, nchildren, nparam_node_add_preserved _ _ _ _ (by omega),
      nparam_node_mul_preserved _ _ _ _ (by omega),
      ← hc, nparam_node_new_self]
  · rw [hsub, nval, nparam_node_add_preserved _ _ _ _ (by omega),
      nparam_node_mul_preserved _ _ _ _ (by omega),
      ← hc, nparam_node_new_self]
  · rw [hsub, ngrad, nparam_node_add_preserved _ _ _ _ (by omega),
      nparam_node_mul_preserved _ _ _ _ (by omega),
      ← hc, nparam_node_new_self]
  · rw [hsub, nval, nparam_node_add_self]
    show nval _ a + nval _ _ = _
    rw [show nval (Node.mul (Node.new g (-1)).1 b (Node.new g (-1)).2).1 a
        = nval g a by
      rw [nval, nparam_node_mul_preserved _ _ _ _ (by omega)]
      exact hva1]
    rw [show nval (Node.mul (Node.new g (-1)).1 b (Node.new g (-1)).2).1
          (Node.mul (Node.new g (-1)).1 b (Node.new g (-1)).2).2
        = nval g b * (-1) by
      rw [nval, nparam_node_mul_self]
      show nval _ b * nval _ _ = _
      rw [hvb1, hvc1]]
    ring

/-- Witness for C3 on the concrete graph `[2, 3, 2*3]` with the `Mul` root at
index 2: the local rule adds 3 to the first child's grad and 2 to the second
child's grad. -/
theorem C3_multiply_witness :
    ngrad (localRule [⟨2, 0, [], Op.none⟩, ⟨3, 0, [], Op.none⟩,
        ⟨6, 1, [0, 1], Op.mul⟩] 2) 0 = 3 ∧
    ngrad (localRule [⟨2, 0, [], Op.none⟩, ⟨3, 0, [], Op.none⟩,
        ⟨6, 1, [0, 1], Op.mul⟩] 2) 1 = 2 := by
  have h := C3_multiply_product_rule [] 0 0
    [⟨2, 0, [], Op.none⟩, ⟨3, 0, [], Op.none⟩, ⟨6, 1, [0, 1], Op.mul⟩] 2 0 1
    (by decide) (by decide) (by decide) (by decide) (by decide)
  refine ⟨?_, ?_⟩
  · rw [h.2.1]; norm_num [ngrad, nval, nparam]
  · rw [h.2.2.1]; norm_num [ngrad, nval, nparam]

/-- Witness for C4 on the concrete graph `[2, 3, 2+3]` with the `Add` root at
index 2: the local rule adds the root's grad 1 to each child's grad. -/
theorem C4_add_witness :
    ngrad (localRule [⟨2, 0, [], Op.none⟩, ⟨3, 0, [], Op.none⟩,
        ⟨5, 1, [0, 1], Op.add⟩] 2) 0 = 1 ∧
    ngrad (localRule [⟨2, 0, [], Op.none⟩, ⟨3, 0, [], Op.none⟩,
        ⟨5, 1, [0, 1], Op.add⟩] 2) 1 = 1 := by
  have h := C4_add_backward [] 0 0
    [⟨2, 0, [], Op.none⟩, ⟨3, 0, [], Op.none⟩, ⟨5, 1, [0, 1], Op.add⟩] 2 0 1
    (by decide) (by decide) (by decide) (by decide) (by decide)
  refine ⟨?_, ?_⟩
  · rw [h.2.1]; norm_num [ngrad, nval, nparam]
  · rw [h.2.2.1]; norm_num [ngrad, nval, nparam]

/-- Witness for C5 with the concrete tanh function `fun _ => 0` (which agrees
with `tanh` at 0): the full pipeline at `a = constant(0)` yields
`r.value() = 0` and `a.grad() = 1`. -/
theorem C5_tanh_witness :
    (let pa := Node.new [] 0
     let r := Node.tanh (fun _ => 0) pa.1 pa.2
     let gb := Node.backward_pass (set_grad r.1 r.2 1) r.2
     (nval r.1 r.2, ngrad gb pa.2)) = (0, 1) :=
  (C5_tanh_backward (fun _ => 0) rfl [] 0
    [⟨0, 0, [], Op.none⟩, ⟨0, 1, [0], Op.tanh⟩] 1 0
    (by decide) (by decide) (by decide)).2.2

/-- Witness for C8 on the two-node graph `[10, 4]`: `subtract` of node 0 and
node 1 yields value 6 with an `Add` root. -/
theorem C8_subtract_witness :
    nval (Node.sub [⟨10, 0, [], Op.none⟩, ⟨4, 0, [], Op.none⟩] 0 1).1
        (Node.sub [⟨10, 0, [], Op.none⟩, ⟨4, 0, [], Op.none⟩] 0 1).2
      = nval [⟨10, 0, [], Op.none⟩, ⟨4, 0, [], Op.none⟩] 0
        - nval [⟨10, 0, [], Op.none⟩, ⟨4, 0, [], Op.none⟩] 1 ∧
    nop (Node.sub [⟨10, 0, [], Op.none⟩, ⟨4, 0, [], Op.none⟩] 0 1).1
        (Node.sub [⟨10, 0, [], Op.none⟩, ⟨4, 0, [], Op.none⟩] 0 1).2 = Op.add := by
  have h := C8_subtract_composition [⟨10, 0, [], Op.none⟩, ⟨4, 0, [], Op.none⟩]
    0 1 (by decide) (by decide)
  exact ⟨h.2.2.2.2.2.2.2.2.2.2, h.2.2.1⟩

lemma length_set_val (g : Graph) (i : Nat) (x : ℚ) :
    (set_val g i x).length = g.length := length_setNode g i _

lemma nval_set_val_self (g : Graph) (i : Nat) (x : ℚ) (hi : i < g.length) :
    nval (set_val g i x) i = x := by
  simp [nval, set_val, nparam_setNode_self g i _ hi]

lemma nparam_set_val_ne (g : Graph) (i j : Nat) (x : ℚ) (hne : j ≠ i) :
    nparam (set_val g i x) j = nparam g j :=
  nparam_setNode_ne g i j _ hne

lemma ngrad_set_val (g : Graph) (i : Nat) (x : ℚ) (j : Nat) :
    ngrad (set_val g i x) j = ngrad g j := by
  rcases eq_or_ne j i with rfl | hne
  · rcases lt_or_le j g.length with hj | hj
    · simp [ngrad, set_val, nparam_setNode_self g j _ hj]
    · simp [set_val, setNode_of_length_le g j _ hj]
  · simp [ngrad, nparam_set_val_ne g i j x hne]

lemma nchildren_set_val (g : Graph) (i : Nat) (x : ℚ) (j : Nat) :
    nchildren (set_val g i x) j = nchildren g j := by
  rcases eq_or_ne j i with rfl | hne
  · rcases lt_or_le j g.length with hj | hj
    · simp [nchildren, set_val, nparam_setNode_self g j _ hj]
    · simp [set_val, setNode_of_length_le g j _ hj]
  · simp [nchildren, nparam_set_val_ne g i j x hne]

lemma nop_set_val (g : Graph) (i : Nat) (x : ℚ) (j : Nat) :
    nop (set_val g i x) j = nop g j := by
  rcases eq_or_ne j i with rfl | hne
  · rcases lt_or_le j g.length with hj | hj
    · simp [nop, set_val, nparam_setNode_self g j _ hj]
    · simp [set_val, setNode_of_length_le g j _ hj]
  · simp [nop, nparam_set_val_ne g i j x hne]

lemma updW_grad_preserved (rate : ℚ) :
    ∀ (l : List Nat) (g : Graph) (j : Nat),
      ngrad (l.foldl (fun acc wi =>
          set_val acc wi (nval acc wi - rate * clampQ (ngrad acc wi) (-1) 1)) g) j
        = ngrad g j := by
  intro l
  induction l with
  | nil => intro g j; rfl
  | cons w0 t ih =>
      intro g j
      rw [List.foldl_cons, ih, ngrad_set_val]

lemma updW_children_preserved (rate : ℚ) :
    ∀ (l : List Nat) (g : Graph) (j : Nat),
      nchildren (l.foldl (fun acc wi =>
          set_val acc wi (nval acc wi - rate * clampQ (ngrad acc wi) (-1) 1)) g) j
        = nchildren g j := by
  intro l
  induction l with
  | nil => intro g j; rfl
  | cons w0 t ih =>
      intro g j
      rw [List.foldl_cons, ih, nchildren_set_val]

lemma updW_op_preserved (rate : ℚ) :
    ∀ (l : List Nat) (g : Graph) (j : Nat),
      nop (l.foldl (fun acc wi =>
          set_val acc wi (nval acc wi - rate * clampQ (ngrad acc wi) (-1) 1)) g) j
        = nop g j := by
  intro l
  induction l with
  | nil => intro g j; rfl
  | cons w0 t ih =>
      intro g j
      rw [List.foldl_cons, ih, nop_set_val]

lemma updW_untouched (rate : ℚ) :
    ∀ (l : List Nat) (g : Graph) (j : Nat), j ∉ l →
      nparam (l.foldl (fun acc wi =>
          set_val acc wi (nval acc wi - rate * clampQ (ngrad acc wi) (-1) 1)) g) j
        = nparam g j := by
  intro l
  induction l with
  | nil => intro g j _; rfl
  | cons w0 t ih =>
      intro g j hj
      rw [List.foldl_cons, ih _ j (fun h => hj (List.mem_cons_of_mem w0 h)),
        nparam_set_val_ne g w0 j _ (fun h => hj (h ▸ List.mem_cons_self w0 t))]

lemma updW_val (rate : ℚ) :
    ∀ (l : List Nat), l.Nodup → ∀ (g : Graph), ∀ p ∈ l,
      nval (l.foldl (fun acc wi =>
          set_val acc wi (nval acc wi - rate * clampQ (ngrad acc wi) (-1) 1)) g) p
        = nval g p - rate * clampQ (ngrad g p) (-1) 1 := by
  intro l
  induction l with
  | nil => intro _ g p hp; simp at hp
  | cons w0 t ih =>
      intro hnd g p hp
      obtain ⟨hw0t, hndt⟩ := List.nodup_cons.mp hnd
      rw [List.foldl_cons]
      rcases List.mem_cons.mp hp with rfl | hpt
      · have huntouched := updW_untouched rate t
          (set_val g p (nval g p - rate * clampQ (ngrad g p) (-1) 1)) p hw0t
        rcases lt_or_le p g.length with hplen | hplen
        · rw [nval, huntouched]
          show nval (set_val g p _) p = _
          rw [nval_set_val_self g p _ hplen]
        · have hid : set_val g p (nval g p - rate * clampQ (ngrad g p) (-1) 1) = g := by
            rw [set_val, setNode_of_length_le g p _ hplen]
          rw [nval, hid, updW_untouched rate t g p hw0t]
          have hv : nval g p = 0 := by
            rw [nval, nparam_of_length_le g p hplen]; rfl
          have hgr : ngrad g p = 0 := by
            rw [ngrad, nparam_of_length_le g p hplen]; rfl
          show nval g p = _
          rw [hv, hgr]
          norm_num [clampQ]
      · have hpne : p ≠ w0 := fun h => hw0t (h ▸ hpt)
        rw [ih hndt _ p hpt]
        rw [show nval (set_val g w0 (nval g w0 - rate * clampQ (ngrad g w0) (-1) 1)) p
            = nval g p from by rw [nval, nparam_set_val_ne g w0 p _ hpne]; rfl]
        rw [ngrad_set_val]

/-- Claim C6: `update_params(rate)` on a neuron updates each weight in order
and then the bias by `value -= rate * clamp(grad, -1, 1)`; only the `value`
field of these parameter nodes changes (their gradients and every other node
are untouched); and a parameter whose gradient is 5.0 updated with rate 0.1
moves by exactly `-0.1 * 1.0` (the clamped gradient), not `-0.5`. -/
theorem C6_update_params_clips_and_steps (g : Graph) (nr : Neuron) (rate : ℚ)
    (hnd : (nr.w ++ [nr.b]).Nodup) :
    (∀ p ∈ nr.w ++ [nr.b],
        nval (Neuron.update_params g nr rate) p
          = nval g p - rate * clampQ (ngrad g p) (-1) 1) ∧
    (∀ j, j ∉ nr.w ++ [nr.b] →
        nparam (Neuron.update_params g nr rate) j = nparam g j) ∧
    (∀ j, ngrad (Neuron.update_params g nr rate) j = ngrad g j ∧
        nchildren (Neuron.update_params g nr rate) j = nchildren g j ∧
        nop (Neuron.update_params g nr rate) j = nop g j) ∧
    (∀ p ∈ nr.w ++ [nr.b], ngrad g p = 5 →
        nval (Neuron.update_params g nr (1/10)) p = nval g p - 1/10) := by
  have hwnd : nr.w.Nodup := hnd.of_append_left
  have hbw : nr.b ∉ nr.w := fun h =>
    (List.disjoint_of_nodup_append hnd) h (List.mem_singleton_self nr.b)
  have key : ∀ (rate' : ℚ), ∀ p ∈ nr.w ++ [nr.b],
      nval (Neuron.update_params g nr rate') p
        = nval g p - rate' * clampQ (ngrad g p) (-1) 1 := by
    intro rate' p hp
    rcases List.mem_append.mp hp with hpw | hpb
    · have hpb' : p ≠ nr.b := fun h => hbw (h ▸ hpw)
      show nval (set_val _ nr.b _) p = _
      rw [nval, nparam_set_val_ne _ nr.b p _ hpb']
      exact updW_val rate' nr.w hwnd g p hpw
    · have hpb' : p = nr.b := List.mem_singleton.mp hpb
      subst hpb'
      show nval (set_val _ nr.b _) nr.b = _
      have hg1 : ngrad (nr.w.foldl (fun acc wi =>
          set_val acc wi (nval acc wi - rate' * clampQ (ngrad acc wi) (-1) 1)) g) nr.b
            = ngrad g nr.b := updW_grad_preserved rate' nr.w g nr.b
      have hv1 : nval (nr.w.foldl (fun acc wi =>
          set_val acc wi (nval acc wi - rate' * clampQ (ngrad acc wi) (-1) 1)) g) nr.b
            = nval g nr.b := by
        rw [nval, updW_untouched rate' nr.w g nr.b hbw]; rfl
      rcases lt_or_le nr.b g.length with hplen | hplen
      · rw [nval_set_val_self _ nr.b _ (by
            have : ∀ (l : List Nat) (g0 : Graph),
                (l.foldl (fun acc wi =>
                  set_val acc wi (nval acc wi - rate' * clampQ (ngrad acc wi) (-1) 1)) g0).length
                  = g0.length := by
              intro l
              induction l with
              | nil => intro g0; rfl
              | cons w0 t ih => intro g0; rw [List.foldl_cons, ih, length_set_val]
            rw [this]; exact hplen),
          hg1, hv1]
      · have hv0 : nval g nr.b = 0 := by
          rw [nval, nparam_of_length_le g nr.b hplen]; rfl
        have hgr0 : ngrad g nr.b = 0 := by
          rw [ngrad, nparam_of_length_le g nr.b hplen]; rfl
        have hid : ∀ y, set_val (nr.w.foldl (fun acc wi =>
            set_val acc wi (nval acc wi - rate' * clampQ (ngrad acc wi) (-1) 1)) g) nr.b y
              = (nr.w.foldl (fun acc wi =>
                set_val acc wi (nval acc wi - rate' * clampQ (ngrad acc wi) (-1) 1)) g) := by
          intro y
          rw [set_val, setNode_of_length_le _ nr.b _ (by
            have : ∀ (l : List Nat) (g0 : Graph),
                (l.foldl (fun acc wi =>
                  set_val acc wi (nval acc wi - rate' * clampQ (ngrad acc wi) (-1) 1)) g0).length
                  = g0.length := by
              intro l
              induction l with
              | nil => intro g0; rfl
              | cons w0 t ih => intro g0; rw [List.foldl_cons, ih, length_set_val]
            rw [this]; exact hplen)]
        rw [hid, hv1, hv0, hgr0]
        norm_num [clampQ]
  refine ⟨key rate, ?_, ?_, ?_⟩
  · intro j hj
    have hjw : j ∉ nr.w := fun h => hj (List.mem_append.mpr (Or.inl h))
    have hjb : j ≠ nr.b := fun h =>
      hj (List.mem_append.mpr (Or.inr (h ▸ List.mem_singleton_self nr.b)))
    show nparam (set_val _ nr.b _) j = _
    rw [nparam_set_val_ne _ nr.b j _ hjb, updW_untouched rate nr.w g j hjw]
  · intro j
    refine ⟨?_, ?_, ?_⟩
    · show ngrad (set_val _ nr.b _) j = _
      rw [ngrad_set_val, updW_grad_preserved]
    · show nchildren (set_val _ nr.b _) j = _
      rw [nchildren_set_val, updW_children_preserved]
    · show nop (set_val _ nr.b _) j = _
      rw [nop_set_val, updW_op_preserved]
  · intro p hp hg5
    rw [key (1/10) p hp, hg5]
    norm_num [clampQ]

/-- Witness for C6: a weight node with value 2 and gradient 5, updated with
rate 0.1, ends at value 2 - 0.1 = 19/10 (clipped step), with its gradient
left at 5. -/
theorem C6_update_params_witness :
    nval (Neuron.update_params
        [⟨2, 5, [], Op.none⟩, ⟨7, 0, [], Op.none⟩] ⟨1, [0], 1⟩ (1/10)) 0
      = 19/10 ∧
    ngrad (Neuron.update_params
        [⟨2, 5, [], Op.none⟩, ⟨7, 0, [], Op.none⟩] ⟨1, [0], 1⟩ (1/10)) 0 = 5 := by
  have h := C6_update_params_clips_and_steps
    [⟨2, 5, [], Op.none⟩, ⟨7, 0, [], Op.none⟩] ⟨1, [0], 1⟩ (1/10) (by decide)
  constructor
  · rw [h.2.2.2 0 (by decide) (by norm_num [ngrad, nparam])]
    norm_num [nval, nparam]
  · rw [(h.2.2.1 0).1]
    norm_num [ngrad, nparam]

lemma set_grad_zero_preserves (g : Graph) (i q : Nat) (h : ngrad g q = 0) :
    ngrad (set_grad g i 0) q = 0 := by
  rcases eq_or_ne q i with rfl | hne
  · rcases lt_or_le q g.length with hq | hq
    · rw [ngrad_set_grad_self g q 0 hq]
    · rw [set_grad, setNode_of_length_le g q _ hq]
      exact h
  · rw [ngrad_set_grad_ne g i q 0 hne]
    exact h

lemma set_grad_zero_self (g : Graph) (i : Nat) : ngrad (set_grad g i 0) i = 0 := by
  rcases lt_or_le i g.length with hq | hq
  · exact ngrad_set_grad_self g i 0 hq
  · rw [set_grad, setNode_of_length_le g i _ hq, ngrad, nparam_of_length_le g i hq]
    rfl

lemma zgW_zero_preserved :
    ∀ (l : List Nat) (g : Graph) (q : Nat), ngrad g q = 0 →
      ngrad (l.foldl (fun acc wi => set_grad acc wi 0) g) q = 0 := by
  intro l
  induction l with
  | nil => intro g q h; exact h
  | cons w0 t ih =>
      intro g q h
      rw [List.foldl_cons]
      exact ih _ q (set_grad_zero_preserves g w0 q h)

lemma zgW_mem_zero :
    ∀ (l : List Nat) (g : Graph), ∀ p ∈ l,
      ngrad (l.foldl (fun acc wi => set_grad acc wi 0) g) p = 0 := by
  intro l
  induction l with
  | nil => intro g p hp; simp at hp
  | cons w0 t ih =>
      intro g p hp
      rw [List.foldl_cons]
      rcases List.mem_cons.mp hp with rfl | hpt
      · exact zgW_zero_preserved t _ p (set_grad_zero_self g p)
      · exact ih _ p hpt

lemma zgW_untouched :
    ∀ (l : List Nat) (g : Graph) (j : Nat), j ∉ l →
      nparam (l.foldl (fun acc wi => set_grad acc wi 0) g) j = nparam g j := by
  intro l
  induction l with
  | nil => intro g j _; rfl
  | cons w0 t ih =>
      intro g j hj
      rw [List.foldl_cons, ih _ j (fun h => hj (List.mem_cons_of_mem w0 h)),
        nparam_set_grad_ne g w0 j _ (fun h => hj (h ▸ List.mem_cons_self w0 t))]

lemma setNode_self_nparam : ∀ (g : Graph) (i : Nat), setNode g i (nparam g i) = g := by
  intro g
  induction g with
  | nil => intro i; rfl
  | cons q t ih =>
      intro i
      cases i with
      | zero => rfl
      | succ n => show q :: setNode t n (nparam t n) = q :: t; rw [ih n]

lemma set_grad_zero_id (g : Graph) (i : Nat) (h : ngrad g i = 0) :
    set_grad g i 0 = g := by
  have hp : { nparam g i with grad := 0 } = nparam g i := by
    rw [← h]; rfl
  rw [set_grad, hp, setNode_self_nparam]

lemma zgW_id :
    ∀ (l : List Nat) (g : Graph), (∀ p ∈ l, ngrad g p = 0) →
      l.foldl (fun acc wi => set_grad acc wi 0) g = g := by
  intro l
  induction l with
  | nil => intro g _; rfl
  | cons w0 t ih =>
      intro g h
      rw [List.foldl_cons, set_grad_zero_id g w0 (h w0 (List.mem_cons_self w0 t))]
      exact ih g (fun p hp => h p (List.mem_cons_of_mem w0 hp))

/-- The set of parameter gradients `Neuron::zero_grad` targets. -/
def neuronParams (nr : Neuron) : List Nat := nr.w ++ [nr.b]

lemma neuron_zero_grad_param_zero (g : Graph) (nr : Neuron) :
    ∀ p ∈ neuronParams nr, ngrad (Neuron.zero_grad g nr) p = 0 := by
  intro p hp
  rcases List.mem_append.mp hp with hpw | hpb
  · exact set_grad_zero_preserves _ nr.b p (zgW_mem_zero nr.w g p hpw)
  · rw [List.mem_singleton.mp hpb]
    exact set_grad_zero_self _ nr.b

lemma neuron_zero_grad_zero_preserved (g : Graph) (nr : Neuron) (q : Nat)
    (h : ngrad g q = 0) : ngrad (Neuron.zero_grad g nr) q = 0 :=
  set_grad_zero_preserves _ nr.b q (zgW_zero_preserved nr.w g q h)

lemma neuron_zero_grad_untouched (g : Graph) (nr : Neuron) (j : Nat)
    (hj : j ∉ neuronParams nr) :
    nparam (Neuron.zero_grad g nr) j = nparam g j := by
  have hjw : j ∉ nr.w := fun h => hj (List.mem_append.mpr (Or.inl h))
  have hjb : j ≠ nr.b := fun h =>
    hj (List.mem_append.mpr (Or.inr (h ▸ List.mem_singleton_self nr.b)))
  show nparam (set_grad _ nr.b 0) j = _
  rw [nparam_set_grad_ne _ nr.b j 0 hjb, zgW_untouched nr.w g j hjw]

lemma sameStruct_neuron_zero_grad (g : Graph) (nr : Neuron) :
    SameStruct g (Neuron.zero_grad g nr) :=
  sameStruct_trans
    (sameStruct_foldl _ (fun a c => sameStruct_set_grad a c 0) nr.w g)
    (sameStruct_set_grad _ nr.b 0)

lemma neuron_zero_grad_id (g : Graph) (nr : Neuron)
    (h : ∀ p ∈ neuronParams nr, ngrad g p = 0) :
    Neuron.zero_grad g nr = g := by
  show set_grad (nr.w.foldl (fun acc wi => set_grad acc wi 0) g) nr.b 0 = g
  rw [zgW_id nr.w g
    (fun p hp => h p (List.mem_append.mpr (Or.inl hp)))]
  exact set_grad_zero_id g nr.b
    (h nr.b (List.mem_append.mpr (Or.inr (List.mem_singleton_self nr.b))))

lemma zgNs_zero_preserved :
    ∀ (ns : List Neuron) (g : Graph) (q : Nat), ngrad g q = 0 →
      ngrad (ns.foldl (fun acc n => Neuron.zero_grad acc n) g) q = 0 := by
  intro ns
  induction ns with
  | nil => intro g q h; exact h
  | cons n0 t ih =>
      intro g q h
      rw [List.foldl_cons]
      exact ih _ q (neuron_zero_grad_zero_preserved g n0 q h)

lemma zgNs_param_zero :
    ∀ (ns : List Neuron) (g : Graph), ∀ n ∈ ns, ∀ p ∈ neuronParams n,
      ngrad (ns.foldl (fun acc n => Neuron.zero_grad acc n) g) p = 0 := by
  intro ns
  induction ns with
  | nil => intro g n hn; simp at hn
  | cons n0 t ih =>
      intro g n hn p hp
      rw [List.foldl_cons]
      rcases List.mem_cons.mp hn with rfl | hnt
      · exact zgNs_zero_preserved t _ p (neuron_zero_grad_param_zero g n p hp)
      · exact ih _ n hnt p hp

lemma zgNs_id :
    ∀ (ns : List Neuron) (g : Graph),
      (∀ n ∈ ns, ∀ p ∈ neuronParams n, ngrad g p = 0) →
      ns.foldl (fun acc n => Neuron.zero_grad acc n) g = g := by
  intro ns
  induction ns with
  | nil => intro g _; rfl
  | cons n0 t ih =>
      intro g h
      rw [List.foldl_cons,
        neuron_zero_grad_id g n0 (h n0 (List.mem_cons_self n0 t))]
      exact ih g (fun n hn => h n (List.mem_cons_of_mem n0 hn))

lemma layer_zero_grad_zero_preserved (g : Graph) (l : Layer) (q : Nat)
    (h : ngrad g q = 0) : ngrad (Layer.zero_grad g l) q = 0 :=
  zgNs_zero_preserved l.neurons g q h

lemma layer_zero_grad_param_zero (g : Graph) (l : Layer) :
    ∀ n ∈ l.neurons, ∀ p ∈ neuronParams n,
      ngrad (Layer.zero_grad g l) p = 0 :=
  zgNs_param_zero l.neurons g

lemma layer_zero_grad_id (g : Graph) (l : Layer)
    (h : ∀ n ∈ l.neurons, ∀ p ∈ neuronParams n, ngrad g p = 0) :
    Layer.zero_grad g l = g :=
  zgNs_id l.neurons g h

lemma zgLs_zero_preserved :
    ∀ (ls : List Layer) (g : Graph) (q : Nat), ngrad g q = 0 →
      ngrad (ls.foldl (fun acc l => Layer.zero_grad acc l) g) q = 0 := by
  intro ls
  induction ls with
  | nil => intro g q h; exact h
  | cons l0 t ih =>
      intro g q h
      rw [List.foldl_cons]
      exact ih _ q (layer_zero_grad_zero_preserved g l0 q h)

lemma zgLs_param_zero :
    ∀ (ls : List Layer) (g : Graph), ∀ l ∈ ls, ∀ n ∈ l.neurons,
      ∀ p ∈ neuronParams n,
        ngrad (ls.foldl (fun acc l => Layer.zero_grad acc l) g) p = 0 := by
  intro ls
  induction ls with
  | nil => intro g l hl; simp at hl
  | cons l0 t ih =>
      intro g l hl n hn p hp
      rw [List.foldl_cons]
      rcases List.mem_cons.mp hl with rfl | hlt
      · exact zgLs_zero_preserved t _ p (layer_zero_grad_param_zero g l n hn p hp)
      · exact ih _ l hlt n hn p hp

lemma zgLs_id :
    ∀ (ls : List Layer) (g : Graph),
      (∀ l ∈ ls, ∀ n ∈ l.neurons, ∀ p ∈ neuronParams n, ngrad g p = 0) →
      ls.foldl (fun acc l => Layer.zero_grad acc l) g = g := by
  intro ls
  induction ls with
  | nil => intro g _; rfl
  | cons l0 t ih =>
      intro g h
      rw [List.foldl_cons,
        layer_zero_grad_id g l0 (h l0 (List.mem_cons_self l0 t))]
      exact ih g (fun l hl => h l (List.mem_cons_of_mem l0 hl))

/-- Claim C9: `zero_grad` on a neuron sets grad 0 on every weight and on the
bias and touches nothing else (in particular it never recurses into children,
so the ephemeral graph from the last forward pass is untouched), it changes
gradients only (values, children and tags are preserved everywhere), and it is
idempotent — both at the neuron level and, by delegation, at the network
level. -/
theorem C9_zero_grad_params_only_idempotent (g : Graph) (nr : Neuron)
    (gm : Graph) (m : MLP) :
    (∀ p ∈ nr.w ++ [nr.b], ngrad (Neuron.zero_grad g nr) p = 0) ∧
    (∀ j, j ∉ nr.w ++ [nr.b] → nparam (Neuron.zero_grad g nr) j = nparam g j) ∧
    (∀ j, nval (Neuron.zero_grad g nr) j = nval g j ∧
      nchildren (Neuron.zero_grad g nr) j = nchildren g j ∧
      nop (Neuron.zero_grad g nr) j = nop g j) ∧
    Neuron.zero_grad (Neuron.zero_grad g nr) nr = Neuron.zero_grad g nr ∧
    MLP.zero_grad (MLP.zero_grad gm m) m = MLP.zero_grad gm m := by
  refine ⟨neuron_zero_grad_param_zero g nr,
    fun j hj => neuron_zero_grad_untouched g nr j hj,
    fun j => (sameStruct_neuron_zero_grad g nr).2 j,
    neuron_zero_grad_id _ nr (neuron_zero_grad_param_zero g nr), ?_⟩
  exact zgLs_id m.layers _ (fun l hl n hn p hp =>
    zgLs_param_zero m.layers gm l hl n hn p hp)

/-- Witness for C9: a one-weight neuron over a three-node graph (weight at 0,
bias at 1, an ephemeral `Add` node at 2 with grad 7): both parameter grads
become 0, the ephemeral node is untouched, and the `zero_grad` calls are
idempotent on a one-layer network. -/
theorem C9_zero_grad_witness :
    ngrad (Neuron.zero_grad
      [⟨1, 3, [], Op.none⟩, ⟨2, 4, [], Op.none⟩, ⟨5, 7, [0, 1], Op.add⟩]
      ⟨1, [0], 1⟩) 0 = 0 ∧
    nparam (Neuron.zero_grad
      [⟨1, 3, [], Op.none⟩, ⟨2, 4, [], Op.none⟩, ⟨5, 7, [0, 1], Op.add⟩]
      ⟨1, [0], 1⟩) 2 = ⟨5, 7, [0, 1], Op.add⟩ ∧
    MLP.zero_grad (MLP.zero_grad [⟨1, 3, [], Op.none⟩, ⟨2, 4, [], Op.none⟩]
        ⟨1, [1], [⟨1, 1, [⟨1, [0], 1⟩]⟩]⟩)
        ⟨1, [1], [⟨1, 1, [⟨1, [0], 1⟩]⟩]⟩
      = MLP.zero_grad [⟨1, 3, [], Op.none⟩, ⟨2, 4, [], Op.none⟩]
        ⟨1, [1], [⟨1, 1, [⟨1, [0], 1⟩]⟩]⟩ := by
  have h := C9_zero_grad_params_only_idempotent
    [⟨1, 3, [], Op.none⟩, ⟨2, 4, [], Op.none⟩, ⟨5, 7, [0, 1], Op.add⟩]
    ⟨1, [0], 1⟩
    [⟨1, 3, [], Op.none⟩, ⟨2, 4, [], Op.none⟩]
    ⟨1, [1], [⟨1, 1, [⟨1, [0], 1⟩]⟩]⟩
  exact ⟨h.1 0 (by decide), h.2.1 2 (by decide), h.2.2.2.2⟩

lemma usizeOfI64_of_nonneg (n : ℤ) (h0 : 0 ≤ n) (h64 : n < 2 ^ 64) :
    usizeOfI64 n = n.toNat := by
  rw [usizeOfI64, Int.emod_eq_of_lt h0 h64]

lemma getD_of_get?_eq_some {α : Type} {l : List α} {n : Nat} {a : α} (d : α)
    (h : l.get? n = some a) : l.getD n d = a := by
  induction l generalizing n with
  | nil => simp at h
  | cons x t ih =>
      cases n with
      | zero =>
          have hx : x = a := by simpa using h
          simp [List.getD, hx]
      | succ k =>
          simp only [List.get?] at h
          simpa [List.getD] using ih h

/-- The weighted-input sum `Σ  w[i].val * x[i].val` over `i < w.length`,
which the forward loop accumulates onto the bias. -/
def dotSum (g : Graph) (w x : List Nat) : ℚ :=
  ((List.range w.length).map
    (fun i => nval g (w.getD i 0) * nval g (x.getD i 0))).sum

lemma forwardLoop_ok (g : Graph) (w x : List Nat)
    (hw : ∀ i ∈ w, i < g.length) (hx : ∀ i ∈ x, i < g.length) :
    ∀ (l : List Nat), (∀ i ∈ l, i < w.length ∧ i < x.length) →
      ∀ (g' : Graph) (act : Nat),
        g.length ≤ g'.length → (∀ j, j < g.length → nparam g' j = nparam g j) →
        act < g'.length →
        ∃ g'' r, forwardLoop w x g' act l = some (g'', r) ∧
          g.length ≤ g''.length ∧
          (∀ j, j < g.length → nparam g'' j = nparam g j) ∧
          r < g''.length ∧
          nval g'' r = nval g' act +
            (l.map (fun i => nval g (w.getD i 0) * nval g (x.getD i 0))).sum := by
  intro l
  induction l with
  | nil =>
      intro _ g' act hlen hpre hact
      exact ⟨g', act, rfl, hlen, hpre, hact, by simp⟩
  | cons i t ih =>
      intro hl g' act hlen hpre hact
      have hiw : i < w.length := (hl i (List.mem_cons_self i t)).1
      have hix : i < x.length := (hl i (List.mem_cons_self i t)).2
      have hwi : w.get? i = some (w.get ⟨i, hiw⟩) := List.get?_eq_get hiw
      have hxi : x.get? i = some (x.get ⟨i, hix⟩) := List.get?_eq_get hix
      have hwmem : w.get ⟨i, hiw⟩ ∈ w := List.get_mem w i hiw
      have hxmem : x.get ⟨i, hix⟩ ∈ x := List.get_mem x i hix
      have hwlt : w.get ⟨i, hiw⟩ < g.length := hw _ hwmem
      have hxlt : x.get ⟨i, hix⟩ < g.length := hx _ hxmem
      have hglen1 : (Node.mul g' (w.get ⟨i, hiw⟩) (x.get ⟨i, hix⟩)).1.length
          = g'.length + 1 := by simp [Node.mul]
      have hglen2 : (Node.add (Node.mul g' (w.get ⟨i, hiw⟩) (x.get ⟨i, hix⟩)).1 act
          (Node.mul g' (w.get ⟨i, hiw⟩) (x.get ⟨i, hix⟩)).2).1.length
            = g'.length + 2 := by simp [Node.add, Node.mul]
      obtain ⟨g'', r, hloop, hlen'', hpre'', hr'', hval''⟩ :=
        ih (fun j hj => hl j (List.mem_cons_of_mem i hj))
          (Node.add (Node.mul g' (w.get ⟨i, hiw⟩) (x.get ⟨i, hix⟩)).1 act
            (Node.mul g' (w.get ⟨i, hiw⟩) (x.get ⟨i, hix⟩)).2).1
          (Node.add (Node.mul g' (w.get ⟨i, hiw⟩) (x.get ⟨i, hix⟩)).1 act
            (Node.mul g' (w.get ⟨i, hiw⟩) (x.get ⟨i, hix⟩)).2).2
          (by omega)
          (by
            intro j hj
            rw [nparam_node_add_preserved _ _ _ _ (by omega),
              nparam_node_mul_preserved _ _ _ _ (by omega)]
            exact hpre j hj)
          (by
            show (Node.mul g' _ _).1.length < _
            omega)
      refine ⟨g'', r, ?_, hlen'', hpre'', hr'', ?_⟩
      · rw [show forwardLoop w x g' act (i :: t)
            = forwardLoop w x
                (Node.add (Node.mul g' (w.get ⟨i, hiw⟩) (x.get ⟨i, hix⟩)).1 act
                  (Node.mul g' (w.get ⟨i, hiw⟩) (x.get ⟨i, hix⟩)).2).1
                (Node.add (Node.mul g' (w.get ⟨i, hiw⟩) (x.get ⟨i, hix⟩)).1 act
                  (Node.mul g' (w.get ⟨i, hiw⟩) (x.get ⟨i, hix⟩)).2).2 t from by
          simp only [forwardLoop, hwi, hxi]]
        exact hloop
      · rw [hval'']
        have hact_val : nval (Node.add
            (Node.mul g' (w.get ⟨i, hiw⟩) (x.get ⟨i, hix⟩)).1 act
            (Node.mul g' (w.get ⟨i, hiw⟩) (x.get ⟨i, hix⟩)).2).1
            (Node.add (Node.mul g' (w.get ⟨i, hiw⟩) (x.get ⟨i, hix⟩)).1 act
              (Node.mul g' (w.get ⟨i, hiw⟩) (x.get ⟨i, hix⟩)).2).2
              = nval g' act
                + nval g (w.getD i 0) * nval g (x.getD i 0) := by
          rw [nval, nparam_node_add_self]
          show nval _ act + nval _ _ = _
          rw [show nval (Node.mul g' (w.get ⟨i, hiw⟩) (x.get ⟨i, hix⟩)).1 act
              = nval g' act from by
            rw [nval, nparam_node_mul_preserved _ _ _ _ hact]; rfl]
          rw [show nval (Node.mul g' (w.get ⟨i, hiw⟩) (x.get ⟨i, hix⟩)).1
                (Node.mul g' (w.get ⟨i, hiw⟩) (x.get ⟨i, hix⟩)).2
              = nval g (w.getD i 0) * nval g (x.getD i 0) from by
            rw [nval, nparam_node_mul_self]
            show nval g' _ * nval g' _ = _
            rw [show nval g' (w.get ⟨i, hiw⟩) = nval g (w.get ⟨i, hiw⟩) from by
                rw [nval, hpre _ hwlt]; rfl,
              show nval g' (x.get ⟨i, hix⟩) = nval g (x.get ⟨i, hix⟩) from by
                rw [nval, hpre _ hxlt]; rfl,
              getD_of_get?_eq_some 0 hwi, getD_of_get?_eq_some 0 hxi]]
        rw [hact_val, List.map_cons, List.sum_cons]
        ring

lemma forwardLoop_none (w x : List Nat) :
    ∀ (k s : Nat) (g : Graph) (act : Nat),
      (∃ i, s ≤ i ∧ i < s + k ∧ x.length ≤ i) →
      forwardLoop w x g act (List.range' s k) = none := by
  intro k
  induction k with
  | zero =>
      intro s g act ⟨i, h1, h2, h3⟩
      omega
  | succ k' ih =>
      intro s g act ⟨i, h1, h2, h3⟩
      rw [List.range'_succ]
      rcases lt_or_le s x.length with hs | hs
      · obtain ⟨xs, hxs⟩ : ∃ xs, x.get? s = some xs :=
          ⟨x.get ⟨s, hs⟩, List.get?_eq_get hs⟩
        cases hws : w.get? s with
        | none => simp only [forwardLoop, hws, hxs]
        | some wi =>
            simp only [forwardLoop, hws, hxs]
            exact ih (s + 1) _ _ ⟨i, by omega, by omega, h3⟩
      · have hxs : x.get? s = none := List.get?_eq_none.mpr hs
        cases hws : w.get? s with
        | none => simp only [forwardLoop, hws, hxs]
        | some wi => simp only [forwardLoop, hws, hxs]

/-- Claim C7 (amended): `Neuron::forward` has no length check; it fails with
an out-of-range access exactly when the input vector is SHORTER than the
weight vector, while an input vector at least as long as the weight vector
(equal or longer — extra inputs are silently ignored) succeeds, returning
`hyperbolic_tangent(bias + Σ weights[i]*inputs[i])` without mutating any
pre-existing node. -/
theorem C7_forward_length_behaviour (ft : ℚ → ℚ) (g : Graph) (nr : Neuron)
    (x : List Nat)
    (hn : nr.n_in = (nr.w.length : ℤ))
    (h64 : (nr.w.length : ℤ) < 2 ^ 64)
    (hw : ∀ i ∈ nr.w, i < g.length) (hx : ∀ i ∈ x, i < g.length)
    (hb : nr.b < g.length) :
    (x.length < nr.w.length → Neuron.forward ft g nr x = none) ∧
    (nr.w.length ≤ x.length →
      ∃ g' r, Neuron.forward ft g nr x = some (g', r) ∧
        (∀ j, j < g.length → nparam g' j = nparam g j) ∧
        nval g' r = ft (nval g nr.b + dotSum g nr.w x)) := by
  have hrange : List.range (usizeOfI64 nr.n_in) = List.range nr.w.length := by
    rw [hn, usizeOfI64_of_nonneg _ (Int.natCast_nonneg _) h64, Int.toNat_natCast]
  constructor
  · intro hshort
    have hnone : forwardLoop nr.w x g nr.b (List.range nr.w.length) = none := by
      rw [List.range_eq_range']
      exact forwardLoop_none nr.w x nr.w.length 0 g nr.b
        ⟨x.length, by omega, by omega, le_refl _⟩
    simp only [Neuron.forward, hrange, hnone]
  · intro hlong
    obtain ⟨g'', r, hloop, hlen'', hpre'', hr'', hval''⟩ :=
      forwardLoop_ok g nr.w x hw hx (List.range nr.w.length)
        (fun i hi => ⟨List.mem_range.mp hi, by
          have := List.mem_range.mp hi; omega⟩)
        g nr.b (le_refl _) (fun j _ => rfl) hb
    refine ⟨(Node.tanh ft g'' r).1, (Node.tanh ft g'' r).2, ?_, ?_, ?_⟩
    · simp only [Neuron.forward, hrange, hloop]
    · intro j hj
      rw [nparam_node_tanh_preserved _ _ _ _ (by omega)]
      exact hpre'' j hj
    · rw [nval, nparam_node_tanh_self]
      show ft (nval g'' r) = _
      rw [hval'']
      rfl

/-- Counterexample to C7 as stated: a neuron with one weight, given an input
vector of length 2 (length differs from the weight count), does NOT fail —
the extra input is silently ignored and `forward` succeeds. -/
theorem C7_forward_counterexample :
    (2 : Nat) ≠ 1 ∧
    (Neuron.forward id
      [⟨1, 0, [], Op.none⟩, ⟨2, 0, [], Op.none⟩, ⟨3, 0, [], Op.none⟩,
       ⟨4, 0, [], Op.none⟩]
      ⟨1, [0], 1⟩ [2, 3]).isSome = true := by
  exact ⟨by decide, rfl⟩

/-- Witness for C7: the same one-weight neuron fails on an empty input vector
(too short) and succeeds on the length-2 input vector. -/
theorem C7_forward_witness :
    Neuron.forward id
      [⟨1, 0, [], Op.none⟩, ⟨2, 0, [], Op.none⟩, ⟨3, 0, [], Op.none⟩,
       ⟨4, 0, [], Op.none⟩]
      ⟨1, [0], 1⟩ [] = none ∧
    (Neuron.forward id
      [⟨1, 0, [], Op.none⟩, ⟨2, 0, [], Op.none⟩, ⟨3, 0, [], Op.none⟩,
       ⟨4, 0, [], Op.none⟩]
      ⟨1, [0], 1⟩ [2, 3]).isSome = true := by
  have h1 := (C7_forward_length_behaviour id
    [⟨1, 0, [], Op.none⟩, ⟨2, 0, [], Op.none⟩, ⟨3, 0, [], Op.none⟩,
     ⟨4, 0, [], Op.none⟩]
    ⟨1, [0], 1⟩ []
    (by decide) (by decide) (by decide) (by decide) (by decide)).1 (by decide)
  have h2 := (C7_forward_length_behaviour id
    [⟨1, 0, [], Op.none⟩, ⟨2, 0, [], Op.none⟩, ⟨3, 0, [], Op.none⟩,
     ⟨4, 0, [], Op.none⟩]
    ⟨1, [0], 1⟩ [2, 3]
    (by decide) (by decide) (by decide) (by decide) (by decide)).2 (by decide)
  obtain ⟨g', r, heq, -, -⟩ := h2
  exact ⟨h1, by rw [heq]; rfl⟩

/-- Default layer used for out-of-range reads in statements. -/
def defaultLayer : Layer := ⟨0, 0, []⟩

lemma mkLayers_spec :
    ∀ (l : List ℤ) (r : Rng) (g : Graph) (prev : ℤ),
      (mkLayers r g prev l).2.2.length = l.length ∧
      ∀ i, i < l.length →
        ((mkLayers r g prev l).2.2.getD i defaultLayer).n_in
          = if i = 0 then prev else l.getD (i - 1) 0 := by
  intro l
  induction l with
  | nil =>
      intro r g prev
      exact ⟨rfl, fun i hi => by simp at hi⟩
  | cons n rest ih =>
      intro r g prev
      constructor
      · show ((Layer.new r g prev n).2.2 :: _).length = _
        simp only [List.length_cons,
          (ih (Layer.new r g prev n).1 (Layer.new r g prev n).2.1 n).1]
      · intro i hi
        cases i with
        | zero => simp [mkLayers, List.getD, Layer.new]
        | succ k =>
            show (((mkLayers (Layer.new r g prev n).1 (Layer.new r g prev n).2.1
                n rest).2.2).getD k defaultLayer).n_in = _
            rw [(ih (Layer.new r g prev n).1 (Layer.new r g prev n).2.1 n).2 k
              (by simpa using hi)]
            cases k with
            | zero => simp
            | succ j => simp [List.getD]

/-- Claim C10: `MLP::new` indexes `n_outs[0]` before its loop, so for the
empty `layer_sizes` vector construction fails with an out-of-bounds access
rather than returning a zero-layer network; for any non-empty vector it
succeeds, producing one layer per entry, with layer 0's fan-in equal to
`n_in` and layer i's fan-in (i ≥ 1) equal to `n_outs[i-1]`. -/
theorem C10_mlp_new_oob_and_fanins (r : Rng) (g : Graph) (n_in : ℤ)
    (n_outs : List ℤ) :
    MLP.new r g n_in [] = none ∧
    (n_outs ≠ [] →
      ∃ r2 g2 m, MLP.new r g n_in n_outs = some (r2, g2, m) ∧
        m.layers.length = n_outs.length ∧
        (m.layers.getD 0 defaultLayer).n_in = n_in ∧
        (∀ i, 1 ≤ i → i < n_outs.length →
          (m.layers.getD i defaultLayer).n_in = n_outs.getD (i - 1) 0)) := by
  refine ⟨rfl, ?_⟩
  intro hne
  cases n_outs with
  | nil => exact absurd rfl hne
  | cons h0 rest =>
      refine ⟨_, _, _, rfl, ?_, ?_, ?_⟩
      · show ((Layer.new r g n_in h0).2.2 :: (mkLayers (Layer.new r g n_in h0).1
            (Layer.new r g n_in h0).2.1 h0 rest).2.2).length = _
        simp only [List.length_cons,
          (mkLayers_spec rest (Layer.new r g n_in h0).1
            (Layer.new r g n_in h0).2.1 h0).1]
      · rfl
      · intro i h1 hi
        cases i with
        | zero => omega
        | succ k =>
            show ((mkLayers (Layer.new r g n_in h0).1 (Layer.new r g n_in h0).2.1
                h0 rest).2.2.getD k defaultLayer).n_in = _
            rw [(mkLayers_spec rest (Layer.new r g n_in h0).1
              (Layer.new r g n_in h0).2.1 h0).2 k (by simpa using hi)]
            cases k with
            | zero => simp
            | succ j => simp [List.getD]

/-- Witness for C10: an empty layer-size vector fails; `[3]` succeeds. -/
theorem C10_mlp_new_witness :
    MLP.new ⟨[]⟩ [] 2 [] = none ∧
    (MLP.new ⟨[]⟩ [] 2 [3]).isSome = true := by
  have h := C10_mlp_new_oob_and_fanins ⟨[]⟩ [] 2 [3]
  obtain ⟨r2, g2, m, heq, -, -, -⟩ := h.2 (by decide)
  exact ⟨h.1, by rw [heq]; rfl⟩

end Micrograd
